import Mathlib

/-!
Verification of the iterative DNS resolver (`idr_starter.py`).

The Python source is shallowly embedded below.  The process-wide dict
`cache` becomes an explicit association-list value threaded through the
functions; the UDP exchange and the system name-resolution call
(`gethostbyname`) become oracle functions passed as parameters; every
externally visible action (NS query, A query, `gethostbyname` call) is
recorded in an event trace so that statements about "no network
activity" can be made precise.  Python dict semantics (insertion order,
in-place update on existing keys) are modelled by the `dictGet` /
`dictSet` / `dictDel` operations on association lists.
-/

/-- Python `s.rstrip('.')`: drop every trailing dot. -/
def rstripDot (s : String) : String :=
  String.mk ((s.data.reverse.dropWhile (fun c => c = '.')).reverse)

/-- Python dict lookup `m[k]` / `k in m` on an insertion-ordered
association list (keys unique by construction). -/
def dictGet {β : Type} : List (String × β) → String → Option β
  | [], _ => none
  | (k, v) :: rest, key => if k = key then some v else dictGet rest key

/-- Python dict assignment `m[k] = v`: update in place when the key is
present (keeping its position), append otherwise. -/
def dictSet {β : Type} : List (String × β) → String → β → List (String × β)
  | [], key, val => [(key, val)]
  | (k, v) :: rest, key, val =>
    if k = key then (key, val) :: rest else (k, v) :: dictSet rest key val

/-- Python `del m[k]`: remove the (unique) entry with the given key. -/
def dictDel {β : Type} : List (String × β) → String → List (String × β)
  | [], _ => []
  | (k, v) :: rest, key => if k = key then rest else (k, v) :: dictDel rest key

/-- A value stored in one bucket of a cache entry: either a list of
strings (the `NS` and `A` buckets) or a hostname-to-IPs mapping (the
`NS_IP` bucket). -/
inductive BVal
  | strs : List String → BVal
  | ipmap : List (String × List String) → BVal
deriving DecidableEq

/-- Iterating a Python dict yields its keys; on a list value iteration
yields the elements.  This is how a bucket value is consumed where the
source expects a list. -/
def strsOf : BVal → List String
  | BVal.strs l => l
  | BVal.ipmap m => m.map (fun p => p.1)

def ipmapOf : BVal → List (String × List String)
  | BVal.ipmap m => m
  | BVal.strs _ => []

/-- One cache entry: bucket name ("NS", "NS_IP", "A") to value, in
bucket insertion order. -/
abbrev Entry := List (String × BVal)

/-- The global `cache`: domain name to entry, in domain insertion
order. -/
abbrev Cache := List (String × Entry)

/-- `cache[d][bucket]` guarded by the two membership tests. -/
def cacheGetBucket (c : Cache) (d bucket : String) : Option BVal :=
  (dictGet c d).bind (fun e => dictGet e bucket)

/-- `domain in cache and "A" in cache[domain]` together with the looked
up value. -/
def cacheGetA (c : Cache) (d : String) : Option BVal :=
  cacheGetBucket c d "A"

/-- `curr_domain in cache and "NS" in cache[curr_domain]`. -/
def cacheGetNSB (c : Cache) (d : String) : Option BVal :=
  cacheGetBucket c d "NS"

/-- `cache[curr_domain].get("NS_IP", {})`. -/
def cacheGetNSIP (c : Cache) (d : String) : List (String × List String) :=
  match cacheGetBucket c d "NS_IP" with
  | some v => ipmapOf v
  | none => []

/-- `if d not in cache: cache[d] = {}` followed by
`cache[d][bucket] = v`. -/
def cacheSetBucket (c : Cache) (d bucket : String) (v : BVal) : Cache :=
  dictSet c d (dictSet ((dictGet c d).getD []) bucket v)

/-- Lines 111-114 of the source: write the NS list and the glue map for
a suffix. -/
def cacheWriteNS (c : Cache) (d : String) (nsA : List String)
    (g : List (String × List String)) : Cache :=
  cacheSetBucket (cacheSetBucket c d "NS" (BVal.strs nsA)) d "NS_IP" (BVal.ipmap g)

/-- Lines 168-170 of the source: write the final address list. -/
def cacheSetA (c : Cache) (d : String) (ips : List String) : Cache :=
  cacheSetBucket c d "A" (BVal.strs ips)

/-- DNS record types distinguished by the source (`QTYPE.A`,
`QTYPE.NS`, `QTYPE.CNAME`); everything else is `other`. -/
inductive RType
  | A | NS | CNAME | other
deriving DecidableEq

/-- A parsed resource record: owner name, type and textual data
(`str(rr.rname)` / `str(rr.rdata)` in the source). -/
structure RRec where
  rname : String
  rtype : RType
  rdata : String
deriving DecidableEq

/-- The dictionary returned by `get_dns_record` on success. -/
structure DnsResponse where
  answers : List RRec
  authority : List RRec
  additional : List RRec
deriving DecidableEq

/-- A received datagram after header parsing: header transaction id,
response code, and the section parse which may itself fail
structurally (`RR.parse` raising). -/
structure Wire where
  hdrId : Nat
  rcode : Nat
  sections : Option DnsResponse
deriving DecidableEq

/-- `get_dns_record` (lines 12-51), decode side.  `x = none` stands for
a transport error or a header parse error (any exception before the id
check); otherwise the id and response code are checked and the section
parse result is returned.  Every failure collapses to `none`. -/
def get_dns_record (x : Option Wire) (qid : Nat) : Option DnsResponse :=
  match x with
  | none => none
  | some w => if w.hdrId ≠ qid ∨ w.rcode ≠ 0 then none else w.sections

/-- The network as seen above the codec: domain, server and record type
to decoded response (`none` = any codec failure). -/
abbrev Net := String → String → RType → Option DnsResponse

/-- The system name-resolution fallback `gethostbyname` (`none` = the
call raised). -/
abbrev Ghbn := String → Option String

/-- The wire-level network together with the codec gives a `Net`. -/
def mkNet (wire : String → String → RType → Option Wire)
    (qid : String → String → RType → Nat) : Net :=
  fun d s t => get_dns_record (wire d s t) (qid d s t)

/-- Externally visible actions of one `resolve` run. -/
inductive Event
  | nsQ : String → String → Event
  | aQ : String → String → Event
  | ghbnCall : String → Event
deriving DecidableEq

def nsQOf : Event → Option (String × String)
  | Event.nsQ n s => some (n, s)
  | _ => none

def ROOT_SERVER : String := "199.7.83.42"

/-- Lines 94-98: collect NS-type records from answers ++ authority,
stripping trailing dots from the hostnames. -/
def nsAnswers (resp : DnsResponse) : List String :=
  (resp.answers ++ resp.authority).filterMap
    (fun r => if r.rtype = RType.NS then some (rstripDot r.rdata) else none)

/-- Lines 104-108: glue map from the additional section; a later A
record for the same owner name overwrites an earlier one, each value a
one-element list. -/
def buildGlue (additional : List RRec) (nsA : List String) :
    List (String × List String) :=
  additional.foldl
    (fun m r =>
      if r.rtype = RType.A ∧ rstripDot r.rname ∈ nsA then
        dictSet m (rstripDot r.rname) [r.rdata]
      else m) []

/-- The `for ns in ...: if ns in ips: take ips[ns][0]` pattern used both
for cached NS reuse (lines 80-85) and glue preference (lines 117-123). -/
def firstGlue (nsA : List String) (g : List (String × List String)) :
    Option String :=
  (nsA.find? (fun ns => (dictGet g ns).isSome)).bind
    (fun ns => ((dictGet g ns).getD []).head?)

/-- Lines 126-133: try `gethostbyname` once per candidate, first success
wins; every attempted call is recorded. -/
def ghbnFallback (ghbn : Ghbn) : List String → Option String × List Event
  | [] => (none, [])
  | ns :: rest =>
    match ghbn (rstripDot ns) with
    | some ip => (some ip, [Event.ghbnCall (rstripDot ns)])
    | none =>
      let r := ghbnFallback ghbn rest
      (r.1, Event.ghbnCall (rstripDot ns) :: r.2)

/-- Lines 116-133: next-hop server selection; glue first, system
fallback only when no nameserver has glue. -/
def selectNextServer (nsA : List String) (g : List (String × List String))
    (ghbn : Ghbn) : Option String × List Event :=
  match firstGlue nsA g with
  | some ip => (some ip, [])
  | none => ghbnFallback ghbn nsA

/-- Outcome of one iteration of the `for` loop over suffixes. -/
inductive StepKind
  | proceed : String → StepKind
  | stop : String → StepKind
  | failed : StepKind
deriving DecidableEq

structure StepResult where
  kind : StepKind
  cache : Cache
  trace : List Event
deriving DecidableEq

/-- One iteration of the delegation walk (lines 73-139) for the suffix
`curr` with the currently selected `server`:
`proceed s` = `continue` to the next suffix with server `s`;
`stop s` = `break` (no NS records found), next action is the address
query at `s`; `failed` = `return None`. -/
def walkStep (net : Net) (ghbn : Ghbn) (curr server : String) (c : Cache) :
    StepResult :=
  match cacheGetNSB c curr with
  | some nsB =>
    StepResult.mk
      (StepKind.proceed ((firstGlue (strsOf nsB) (cacheGetNSIP c curr)).getD server))
      c []
  | none =>
    match net curr server RType.NS with
    | none => StepResult.mk StepKind.failed c [Event.nsQ curr server]
    | some resp =>
      let nsA := nsAnswers resp
      if nsA.isEmpty then
        StepResult.mk (StepKind.stop server) c [Event.nsQ curr server]
      else
        let g := buildGlue resp.additional nsA
        let c' := cacheWriteNS c curr nsA g
        match selectNextServer nsA g ghbn with
        | (some ip, evs) =>
          StepResult.mk (StepKind.proceed ip) c' (Event.nsQ curr server :: evs)
        | (none, evs) =>
          StepResult.mk StepKind.failed c' (Event.nsQ curr server :: evs)

inductive WalkOut
  | fail : WalkOut
  | done : String → WalkOut
deriving DecidableEq

structure WalkResult where
  out : WalkOut
  cache : Cache
  trace : List Event
deriving DecidableEq

/-- The delegation walk: the `for i in range(len(parts)-1, -1, -1)` loop
of lines 69-139, over the list of suffixes. -/
def walk (net : Net) (ghbn : Ghbn) : List String → String → Cache → WalkResult
  | [], server, c => WalkResult.mk (WalkOut.done server) c []
  | curr :: rest, server, c =>
    let st := walkStep net ghbn curr server c
    match st.kind with
    | StepKind.proceed s' =>
      let r := walk net ghbn rest s' st.cache
      WalkResult.mk r.out r.cache (st.trace ++ r.trace)
    | StepKind.stop s' => WalkResult.mk (WalkOut.done s') st.cache st.trace
    | StepKind.failed => WalkResult.mk WalkOut.fail st.cache st.trace

/-- Python `'.'.join`. -/
def joinDots : List String → String
  | [] => ""
  | [x] => x
  | x :: y :: t => x ++ "." ++ joinDots (y :: t)

/-- Helper for `split('.')`: `acc` is the current label, reversed. -/
def splitDotsAux : List Char → List Char → List String
  | [], acc => [String.mk acc.reverse]
  | ch :: rest, acc =>
    if ch = '.' then String.mk acc.reverse :: splitDotsAux rest []
    else splitDotsAux rest (ch :: acc)

/-- `domain.split('.')`: labels between dots, empty labels preserved,
`[""]` for the empty string. -/
def domainParts (domain : String) : List String := splitDotsAux domain.data []

/-- The suffixes visited by the walk, most general first: for index
`j`, `'.'.join(parts[i:])` with `i = len(parts)-1-j`. -/
def suffixes (domain : String) : List String :=
  (List.range (domainParts domain).length).map
    (fun j => joinDots ((domainParts domain).drop ((domainParts domain).length - 1 - j)))

/-- Lines 148-155: the first CNAME record among the answers, its target
with trailing dots stripped. -/
def firstCname (answers : List RRec) : Option String :=
  (answers.find? (fun r => r.rtype = RType.CNAME)).map (fun r => rstripDot r.rdata)

/-- Result of a `resolve` call: the returned value, the final cache and
the trace of external actions. -/
structure RunResult where
  result : Option (List String)
  cache : Cache
  trace : List Event
deriving DecidableEq

/-- One iteration of the `while True` loop of `resolve` (lines 55-173):
cache check, delegation walk, address query, alias detection.  `recur`
is the continuation taken on an alias restart. -/
def resolveStep (net : Net) (ghbn : Ghbn)
    (recur : String → Cache → RunResult) (domain : String) (c : Cache) :
    RunResult :=
  match cacheGetA c domain with
  | some v => RunResult.mk (some (strsOf v)) c []
  | none =>
    let w := walk net ghbn (suffixes domain) ROOT_SERVER c
    match w.out with
    | WalkOut.fail => RunResult.mk none w.cache w.trace
    | WalkOut.done server =>
      match net domain server RType.A with
      | none => RunResult.mk none w.cache (w.trace ++ [Event.aQ domain server])
      | some resp =>
        match firstCname resp.answers with
        | some target =>
          let r := recur target w.cache
          RunResult.mk r.result r.cache
            ((w.trace ++ [Event.aQ domain server]) ++ r.trace)
        | none =>
          let ips := resp.answers.filterMap
            (fun r => if r.rtype = RType.A then some r.rdata else none)
          if ips.isEmpty then
            RunResult.mk none w.cache (w.trace ++ [Event.aQ domain server])
          else
            RunResult.mk (some ips) (cacheSetA w.cache domain ips)
              (w.trace ++ [Event.aQ domain server])

/-- `resolve` (lines 53-173).  The `while True` loop becomes recursion
on `fuel` counting alias restarts; running out of fuel stands for the
non-termination of an unbounded alias chain and yields no result (the
cache short-circuit needs no fuel). -/
def resolveLoop (net : Net) (ghbn : Ghbn) : Nat → String → Cache → RunResult
  | 0, domain, c =>
    match cacheGetA c domain with
    | some v => RunResult.mk (some (strsOf v)) c []
    | none => RunResult.mk none c []
  | fuel + 1, domain, c =>
    resolveStep net ghbn (resolveLoop net ghbn fuel) domain c

/-- The entry point `resolve(domain)`, with the oracles, the alias
budget and the initial cache made explicit. -/
def resolve (net : Net) (ghbn : Ghbn) (fuel : Nat) (domain : String)
    (c : Cache) : RunResult :=
  resolveLoop net ghbn fuel domain c

/-- The next server a productive uncached walk step yields: the NS
query answers, delegation continues, and server selection succeeds. -/
def stepNextOf (net : Net) (ghbn : Ghbn) (name server : String) : Option String :=
  match net name server RType.NS with
  | none => none
  | some resp =>
    let nsA := nsAnswers resp
    if nsA.isEmpty then none
    else (selectNextServer nsA (buildGlue resp.additional nsA) ghbn).1

/-- `list_cache` (lines 176-188): the (domain, bucket) pairs in domain
insertion order, then bucket insertion order. -/
def list_cache (c : Cache) : List (String × String) :=
  (c.map (fun de => de.2.map (fun bv => (de.1, bv.1)))).flatten

/-- `clear_cache` (lines 191-193). -/
def clear_cache (_c : Cache) : Cache := []

/-- `remove_cache_N` (lines 196-211): `true` in the first component
when the index was valid and an item was removed. -/
def remove_cache_N (c : Cache) (n : Nat) : Bool × Cache :=
  let items := list_cache c
  if n < 1 ∨ items.length < n then (false, c)
  else
    match items.get? (n - 1) with
    | none => (false, c)
    | some db =>
      let e := (dictGet c db.1).getD []
      let e' := dictDel e db.2
      (true, if e'.isEmpty then dictDel c db.1 else dictSet c db.1 e')

/-- Well-formedness every cache reachable by the program has: unique
domain keys, unique bucket keys, no empty entries. -/
def cacheWF (c : Cache) : Prop :=
  (c.map Prod.fst).Nodup ∧ ∀ de ∈ c, (de.2.map Prod.fst).Nodup ∧ de.2 ≠ []

/-! Concrete oracles and caches used by witnesses and counterexamples. -/

/-- A network on which every exchange fails. -/
def netNone : Net := fun _ _ _ => none

/-- A system resolver on which every lookup fails. -/
def ghbnNone : Ghbn := fun _ => none

/-- A wire on which every exchange raises. -/
def wireNone : String → String → RType → Option Wire := fun _ _ _ => none

def qidZero : String → String → RType → Nat := fun _ _ _ => 0

/-- Scenario for the C1 witness: a three-level delegation for
`a.b.c`, each referral carrying glue. -/
def netChain : Net := fun name server ty =>
  if name = "c" ∧ server = ROOT_SERVER ∧ ty = RType.NS then
    some ⟨[], [⟨"c", RType.NS, "ns.c."⟩], [⟨"ns.c", RType.A, "1.0.0.1"⟩]⟩
  else if name = "b.c" ∧ server = "1.0.0.1" ∧ ty = RType.NS then
    some ⟨[], [⟨"b.c", RType.NS, "ns.b.c."⟩], [⟨"ns.b.c", RType.A, "2.0.0.2"⟩]⟩
  else if name = "a.b.c" ∧ server = "2.0.0.2" ∧ ty = RType.NS then
    some ⟨[], [⟨"a.b.c", RType.NS, "ns.a.b.c."⟩], [⟨"ns.a.b.c", RType.A, "3.0.0.3"⟩]⟩
  else if name = "a.b.c" ∧ server = "3.0.0.3" ∧ ty = RType.A then
    some ⟨[⟨"a.b.c", RType.A, "4.0.0.4"⟩], [], []⟩
  else none

def srvChain : Nat → String := fun k =>
  if k = 0 then ROOT_SERVER
  else if k = 1 then "1.0.0.1"
  else if k = 2 then "2.0.0.2"
  else "3.0.0.3"

/-- Scenario for the C3 counterexample: the A query for `c` at the
fallback-resolved server returns a CNAME to `t`; `t`'s A query returns
a CNAME back to `c`; the second walk for `c` is served from the cache,
which has no glue, so the server stays at the root, where the A query
now answers with an address. -/
def netCycle : Net := fun name server ty =>
  if name = "c" ∧ server = ROOT_SERVER ∧ ty = RType.NS then
    some ⟨[], [⟨"c", RType.NS, "ns1."⟩], []⟩
  else if name = "c" ∧ server = "7.7.7.7" ∧ ty = RType.A then
    some ⟨[⟨"c", RType.CNAME, "t."⟩], [], []⟩
  else if name = "t" ∧ server = ROOT_SERVER ∧ ty = RType.NS then
    some ⟨[], [⟨"t", RType.NS, "ns2"⟩], [⟨"ns2", RType.A, "8.8.8.8"⟩]⟩
  else if name = "t" ∧ server = "8.8.8.8" ∧ ty = RType.A then
    some ⟨[⟨"t", RType.CNAME, "c"⟩], [], []⟩
  else if name = "c" ∧ server = ROOT_SERVER ∧ ty = RType.A then
    some ⟨[⟨"c", RType.A, "9.9.9.9"⟩], [], []⟩
  else none

def ghbnCycle : Ghbn := fun h => if h = "ns1" then some "7.7.7.7" else none

/-- Scenario for the C5 and C7 counterexamples: the NS query for `b`
returns a response with no NS records, so the walk for `a.b` stops
there and the address is asked at the root. -/
def netEmptyNS : Net := fun name server ty =>
  if name = "b" ∧ server = ROOT_SERVER ∧ ty = RType.NS then
    some ⟨[], [], []⟩
  else if name = "a.b" ∧ server = ROOT_SERVER ∧ ty = RType.A then
    some ⟨[⟨"a.b", RType.A, "1.1.1.1"⟩], [], []⟩
  else none

/-- A cache holding an A bucket under the lower-case, no-trailing-dot
spelling. -/
def cacheLower : Cache := [("example.com", [("A", BVal.strs ["1.2.3.4"])])]

/-- Network for the C3 witness: a single-label name `www` delegated
with glue to 6.6.6.6, where its A query answers with a CNAME to
`example.com`. -/
def netWWW : Net := fun name server ty =>
  if ty = RType.NS then
    some ⟨[], [⟨"www", RType.NS, "ns.e"⟩], [⟨"ns.e", RType.A, "6.6.6.6"⟩]⟩
  else if name = "www" ∧ server = "6.6.6.6" ∧ ty = RType.A then
    some ⟨[⟨"www", RType.CNAME, "example.com"⟩], [], []⟩
  else none

/-- Wire for the C6 witness: the NS exchange for `x` at the root
succeeds with a glued referral; every other exchange raises. -/
def wireC6 : String → String → RType → Option Wire := fun name server ty =>
  if name = "x" ∧ server = ROOT_SERVER ∧ ty = RType.NS then
    some ⟨0, 0, some ⟨[], [⟨"x", RType.NS, "ns.x"⟩], [⟨"ns.x", RType.A, "5.5.5.5"⟩]⟩⟩
  else none

/-- Wire for the C6 witness at a later walk step: the NS exchange for
`b` at the root succeeds with a glued referral to 5.5.5.5; every other
exchange — in particular the NS exchange for `a.b` at 5.5.5.5 —
raises. -/
def wireC6b : String → String → RType → Option Wire := fun name server ty =>
  if name = "b" ∧ server = ROOT_SERVER ∧ ty = RType.NS then
    some ⟨0, 0, some ⟨[], [⟨"b", RType.NS, "ns.b"⟩], [⟨"ns.b", RType.A, "5.5.5.5"⟩]⟩⟩
  else none

/-- The server chain of that scenario. -/
def srvC6b : Nat → String := fun m => if m = 0 then ROOT_SERVER else "5.5.5.5"

/-- A system resolver knowing only `n2`. -/
def ghbnN2 : Ghbn := fun h => if h = "n2" then some "2.2.2.2" else none

/-- A delegation for `s` whose referral has no glue. -/
def netNoGlue : Net := fun name server ty =>
  if name = "s" ∧ server = ROOT_SERVER ∧ ty = RType.NS then
    some ⟨[], [⟨"s", RType.NS, "n1"⟩], []⟩
  else none

/-- A cache already holding the NS delegation of `b.c` with glue. -/
def cacheBC : Cache :=
  [("b.c", [("NS", BVal.strs ["ns.b.c"]),
            ("NS_IP", BVal.ipmap [("ns.b.c", ["9.9.9.9"])])])]

/-- The cache of the spec's removal example:
`[(x.com, NS), (x.com, A), (y.com, A)]`. -/
def cacheXY : Cache :=
  [("x.com", [("NS", BVal.strs ["ns.x.com"]), ("A", BVal.strs ["1.1.1.1"])]),
   ("y.com", [("A", BVal.strs ["2.2.2.2"])])]

/-! Association-list (Python dict) lemmas. -/

theorem dictGet_dictSet_self {β : Type} (m : List (String × β)) (k : String) (v : β) :
    dictGet (dictSet m k v) k = some v := by
  induction m with
  | nil => simp [dictGet, dictSet]
  | cons a rest ih =>
    by_cases h : a.1 = k
    · simp [dictSet, h, dictGet]
    · simp [dictSet, h, dictGet, ih]

theorem dictGet_dictSet_ne {β : Type} (m : List (String × β)) (k k' : String) (v : β)
    (h : k' ≠ k) : dictGet (dictSet m k v) k' = dictGet m k' := by
  have h2 : ¬ (k = k') := Ne.symm h
  induction m with
  | nil => simp [dictGet, dictSet, h2]
  | cons a rest ih =>
    by_cases ha : a.1 = k
    · have h3 : ¬ (a.1 = k') := by rw [ha]; exact h2
      simp [dictSet, ha, dictGet, h2, h3]
    · by_cases ha' : a.1 = k'
      · simp [dictSet, ha, dictGet, ha', h, h2]
      · simp [dictSet, ha, dictGet, ha', h, h2, ih]

theorem dictGet_dictDel_ne {β : Type} (m : List (String × β)) (k k' : String)
    (h : k' ≠ k) : dictGet (dictDel m k) k' = dictGet m k' := by
  have h2 : ¬ (k = k') := Ne.symm h
  induction m with
  | nil => simp [dictDel]
  | cons a rest ih =>
    by_cases ha : a.1 = k
    · have ha' : a.1 ≠ k' := by rw [ha]; exact h2
      simp [dictDel, ha, dictGet, ha', h, h2]
    · by_cases ha' : a.1 = k'
      · simp [dictDel, ha, dictGet, ha', h, h2]
      · simp [dictDel, ha, dictGet, ha', h, h2, ih]

/-! Cache bucket lemmas. -/

theorem cacheGetBucket_set_self (c : Cache) (d b : String) (v : BVal) :
    cacheGetBucket (cacheSetBucket c d b v) d b = some v := by
  unfold cacheGetBucket cacheSetBucket
  rw [dictGet_dictSet_self]
  simp [dictGet_dictSet_self]

theorem cacheGetBucket_set_ne (c : Cache) (d b d' b' : String) (v : BVal)
    (h : d' ≠ d ∨ b' ≠ b) :
    cacheGetBucket (cacheSetBucket c d b v) d' b' = cacheGetBucket c d' b' := by
  unfold cacheGetBucket cacheSetBucket
  rcases h with h | h
  · rw [dictGet_dictSet_ne _ _ _ _ h]
  · by_cases hd : d' = d
    · subst hd
      rw [dictGet_dictSet_self]
      cases hc : dictGet c d' with
      | none => simp [hc, dictGet_dictSet_ne _ _ _ _ h, dictGet, Ne.symm h]
      | some e => simp [hc, dictGet_dictSet_ne _ _ _ _ h]
    · rw [dictGet_dictSet_ne _ _ _ _ hd]

theorem cacheGetA_writeNS (c : Cache) (d0 : String) (nsA : List String)
    (g : List (String × List String)) (d : String) :
    cacheGetA (cacheWriteNS c d0 nsA g) d = cacheGetA c d := by
  unfold cacheGetA cacheWriteNS
  rw [cacheGetBucket_set_ne _ _ _ _ _ _ (Or.inr (by decide)),
    cacheGetBucket_set_ne _ _ _ _ _ _ (Or.inr (by decide))]

theorem cacheGetNSB_writeNS_self (c : Cache) (d0 : String) (nsA : List String)
    (g : List (String × List String)) :
    cacheGetNSB (cacheWriteNS c d0 nsA g) d0 = some (BVal.strs nsA) := by
  unfold cacheGetNSB cacheWriteNS
  rw [cacheGetBucket_set_ne _ _ _ _ _ _ (Or.inr (by decide)),
    cacheGetBucket_set_self]

theorem cacheGetNSIP_writeNS_self (c : Cache) (d0 : String) (nsA : List String)
    (g : List (String × List String)) :
    cacheGetNSIP (cacheWriteNS c d0 nsA g) d0 = g := by
  unfold cacheGetNSIP cacheWriteNS
  rw [cacheGetBucket_set_self]
  rfl

theorem cacheGetNSB_writeNS_ne (c : Cache) (d0 : String) (nsA : List String)
    (g : List (String × List String)) (d : String) (h : d ≠ d0) :
    cacheGetNSB (cacheWriteNS c d0 nsA g) d = cacheGetNSB c d := by
  unfold cacheGetNSB cacheWriteNS
  rw [cacheGetBucket_set_ne _ _ _ _ _ _ (Or.inl h),
    cacheGetBucket_set_ne _ _ _ _ _ _ (Or.inl h)]

theorem cacheGetNSB_setA (c : Cache) (d0 : String) (ips : List String) (d : String) :
    cacheGetNSB (cacheSetA c d0 ips) d = cacheGetNSB c d := by
  unfold cacheGetNSB cacheSetA
  rw [cacheGetBucket_set_ne _ _ _ _ _ _ (Or.inr (by decide))]

theorem cacheGetA_setA_ne (c : Cache) (d0 : String) (ips : List String) (d : String)
    (h : d ≠ d0) : cacheGetA (cacheSetA c d0 ips) d = cacheGetA c d := by
  unfold cacheGetA cacheSetA
  rw [cacheGetBucket_set_ne _ _ _ _ _ _ (Or.inl h)]

/-- C2: a present `A` bucket short-circuits `resolve`: the cached list
is returned, the cache is unchanged, and no external action happens. -/
theorem resolve_cache_short_circuit (net : Net) (ghbn : Ghbn) (fuel : Nat)
    (d : String) (c : Cache) (l : List String)
    (h : cacheGetA c d = some (BVal.strs l)) :
    resolve net ghbn fuel d c = RunResult.mk (some l) c [] := by
  cases fuel with
  | zero => rw [resolve, resolveLoop, h]; rfl
  | succ fuel => rw [resolve, resolveLoop, resolveStep, h]; rfl

/-- C2 witness: with the `A` bucket for `example.com` pre-populated
with `["1.2.3.4"]`, resolving `example.com` returns `["1.2.3.4"]` with
an empty trace and an unchanged cache, on a network where every
exchange would fail. -/
theorem resolve_cache_short_circuit_witness :
    resolve netNone ghbnNone 3 "example.com" cacheLower =
      RunResult.mk (some ["1.2.3.4"]) cacheLower [] :=
  resolve_cache_short_circuit netNone ghbnNone 3 "example.com" cacheLower
    ["1.2.3.4"] (by decide)

/-- C10: when a suffix has a cached `NS` bucket but none of its listed
nameservers appears in the cached glue map, the walk keeps the
previously selected server, writes nothing, performs no external
action, and simply continues with the next suffix. -/
theorem cached_ns_without_glue (net : Net) (ghbn : Ghbn) (curr server : String)
    (c : Cache) (nsB : BVal) (rest : List String)
    (h : cacheGetNSB c curr = some nsB)
    (h2 : ∀ ns ∈ strsOf nsB, dictGet (cacheGetNSIP c curr) ns = none) :
    walkStep net ghbn curr server c = StepResult.mk (StepKind.proceed server) c [] ∧
    walk net ghbn (curr :: rest) server c = walk net ghbn rest server c := by
  have hfind : (strsOf nsB).find? (fun ns => (dictGet (cacheGetNSIP c curr) ns).isSome) = none := by
    rw [List.find?_eq_none]
    intro ns hns
    simp [h2 ns hns]
  have hstep : walkStep net ghbn curr server c =
      StepResult.mk (StepKind.proceed server) c [] := by
    simp only [walkStep, h, firstGlue, hfind, Option.none_bind, Option.getD_none]
  refine ⟨hstep, ?_⟩
  show (let st := walkStep net ghbn curr server c
        match st.kind with
        | StepKind.proceed s' =>
          let r := walk net ghbn rest s' st.cache
          WalkResult.mk r.out r.cache (st.trace ++ r.trace)
        | StepKind.stop s' => WalkResult.mk (WalkOut.done s') st.cache st.trace
        | StepKind.failed => WalkResult.mk WalkOut.fail st.cache st.trace) =
      walk net ghbn rest server c
  rw [hstep]
  simp

/-- C10 witness: concrete instance — suffix `s` cached with nameserver
list `["n1"]` and empty glue map; the walk for `x.s` keeps the root as
server and issues no query for `s`. -/
theorem cached_ns_without_glue_witness :
    walkStep netNone ghbnNone "s" ROOT_SERVER
        [("s", [("NS", BVal.strs ["n1"]), ("NS_IP", BVal.ipmap [])])] =
      StepResult.mk (StepKind.proceed ROOT_SERVER)
        [("s", [("NS", BVal.strs ["n1"]), ("NS_IP", BVal.ipmap [])])] [] ∧
    walk netNone ghbnNone ["s"] ROOT_SERVER
        [("s", [("NS", BVal.strs ["n1"]), ("NS_IP", BVal.ipmap [])])] =
      walk netNone ghbnNone [] ROOT_SERVER
        [("s", [("NS", BVal.strs ["n1"]), ("NS_IP", BVal.ipmap [])])] :=
  cached_ns_without_glue netNone ghbnNone "s" ROOT_SERVER
    [("s", [("NS", BVal.strs ["n1"]), ("NS_IP", BVal.ipmap [])])]
    (BVal.strs ["n1"]) [] (by decide) (by decide)

/-- C3 (amended): an A-query response carrying a CNAME makes `resolve`
adopt the target and restart the whole algorithm — beginning with the
cache check — on the cache as updated by the walk; the overall result
and final cache are exactly those of resolving the target. -/
theorem resolve_cname_restart (net : Net) (ghbn : Ghbn) (fuel : Nat)
    (domain : String) (c : Cache) (server : String) (c1 : Cache)
    (evs : List Event) (resp : DnsResponse) (target : String)
    (hA : cacheGetA c domain = none)
    (hw : walk net ghbn (suffixes domain) ROOT_SERVER c =
      WalkResult.mk (WalkOut.done server) c1 evs)
    (hr : net domain server RType.A = some resp)
    (hc : firstCname resp.answers = some target) :
    resolveLoop net ghbn (fuel + 1) domain c =
      RunResult.mk (resolveLoop net ghbn fuel target c1).result
        (resolveLoop net ghbn fuel target c1).cache
        ((evs ++ [Event.aQ domain server]) ++
          (resolveLoop net ghbn fuel target c1).trace) := by
  rw [resolveLoop]
  unfold resolveStep
  rw [hA, hw]
  simp only [hr, hc]

/-- C3 witness for the amended statement: a CNAME from `www` to
`example.com` whose target is already cached, so the restart is served
from the cache and the overall result is the target's cached list. -/
theorem resolve_cname_restart_witness :
    resolveLoop netWWW ghbnNone 3 "www" cacheLower =
      RunResult.mk (some ["1.2.3.4"])
        (cacheWriteNS cacheLower "www" ["ns.e"] [("ns.e", ["6.6.6.6"])])
        (([Event.nsQ "www" ROOT_SERVER] ++ [Event.aQ "www" "6.6.6.6"]) ++ []) := by
  have h := resolve_cname_restart netWWW ghbnNone 2 "www" cacheLower "6.6.6.6"
    (cacheWriteNS cacheLower "www" ["ns.e"] [("ns.e", ["6.6.6.6"])])
    [Event.nsQ "www" ROOT_SERVER]
    ⟨[⟨"www", RType.CNAME, "example.com"⟩], [], []⟩
    "example.com" (by decide) (by decide) (by decide) (by decide)
  rw [h]
  decide

/-- C3 counterexample: the claim "no A bucket is ever written under the
original (alias) name" fails.  With `netCycle`/`ghbnCycle`, resolving
`c` from an empty cache meets a CNAME (to `t`) in the answers of its
A query at server 7.7.7.7, the chase returns to `c`, whose second walk
is served from the (glueless) cache so the address is asked at the
root and answered — and the A bucket is written under `c` itself. -/
theorem resolve_cname_alias_counterexample :
    (resolve netCycle ghbnCycle 5 "c" []).result = some ["9.9.9.9"] ∧
    cacheGetA (resolve netCycle ghbnCycle 5 "c" []).cache "c" =
      some (BVal.strs ["9.9.9.9"]) ∧
    Event.aQ "c" "7.7.7.7" ∈ (resolve netCycle ghbnCycle 5 "c" []).trace ∧
    firstCname ((netCycle "c" "7.7.7.7" RType.A).getD
      (DnsResponse.mk [] [] [])).answers = some "t" := by
  decide

/-! Suffix list facts: the suffixes of a domain are pairwise distinct
(their lengths strictly increase root-to-leaf). -/

theorem joinDots_cons_ne_nil (x : String) (xs : List String) (h : xs ≠ []) :
    joinDots (x :: xs) = x ++ "." ++ joinDots xs := by
  cases xs with
  | nil => exact absurd rfl h
  | cons y t => rfl

theorem joinDots_drop_succ_length (parts : List String) (i : Nat)
    (h : i + 1 < parts.length) :
    (joinDots (parts.drop (i + 1))).length < (joinDots (parts.drop i)).length := by
  have h0 : i < parts.length := Nat.lt_of_succ_lt h
  have hcons := List.drop_eq_getElem_cons h0
  have hne : parts.drop (i + 1) ≠ [] := by
    apply List.ne_nil_of_length_pos
    rw [List.length_drop]
    omega
  rw [hcons, joinDots_cons_ne_nil _ _ hne, String.length_append, String.length_append]
  have hdot : ("." : String).length = 1 := rfl
  omega

theorem joinDots_drop_lt (parts : List String) (i j : Nat) (hij : i < j)
    (hj : j < parts.length) :
    (joinDots (parts.drop j)).length < (joinDots (parts.drop i)).length := by
  induction j with
  | zero => omega
  | succ j ih =>
    rcases Nat.lt_succ_iff_lt_or_eq.mp hij with h | h
    · exact lt_trans (joinDots_drop_succ_length parts j hj) (ih h (Nat.lt_of_succ_lt hj))
    · subst h
      exact joinDots_drop_succ_length parts i hj

theorem suffixes_nodup (domain : String) : (suffixes domain).Nodup := by
  unfold suffixes
  refine List.Nodup.map_on ?_ (List.nodup_range _)
  intro x hx y hy hxy
  rw [List.mem_range] at hx hy
  by_contra hne
  have hlen : (joinDots ((domainParts domain).drop ((domainParts domain).length - 1 - x))).length =
      (joinDots ((domainParts domain).drop ((domainParts domain).length - 1 - y))).length := by
    rw [hxy]
  rcases Nat.lt_or_ge x y with hlt | hge
  · have := joinDots_drop_lt (domainParts domain)
      ((domainParts domain).length - 1 - y) ((domainParts domain).length - 1 - x)
      (by omega) (by omega)
    omega
  · have hyx : y < x := by omega
    have := joinDots_drop_lt (domainParts domain)
      ((domainParts domain).length - 1 - x) ((domainParts domain).length - 1 - y)
      (by omega) (by omega)
    omega

/-- The events emitted by server selection are `gethostbyname` calls
only; none of them is an NS query. -/
theorem select_events_no_nsq (nsA : List String) (g : List (String × List String))
    (ghbn : Ghbn) : ((selectNextServer nsA g ghbn).2).filterMap nsQOf = [] := by
  have hfb : ∀ l : List String, ((ghbnFallback ghbn l).2).filterMap nsQOf = [] := by
    intro l
    induction l with
    | nil => rfl
    | cons ns rest ih =>
      unfold ghbnFallback
      cases ghbn (rstripDot ns) with
      | some ip => rfl
      | none => simpa [nsQOf] using ih
  unfold selectNextServer
  cases firstGlue nsA g with
  | some ip => rfl
  | none => exact hfb nsA

/-- An uncached, productive walk step: the NS query happens, the suffix
is written, and the walk proceeds with the selected server; the only
NS-query event of the step is the one for this suffix at this server,
and NS buckets of all other names are untouched. -/
theorem walkStep_uncached_proceed (net : Net) (ghbn : Ghbn)
    (curr server ip : String) (c : Cache)
    (hns : cacheGetNSB c curr = none)
    (hnext : stepNextOf net ghbn curr server = some ip) :
    ∃ evs c', walkStep net ghbn curr server c =
        StepResult.mk (StepKind.proceed ip) c' evs ∧
      evs.filterMap nsQOf = [(curr, server)] ∧
      (∀ s, s ≠ curr → cacheGetNSB c' s = cacheGetNSB c s) := by
  unfold stepNextOf at hnext
  cases hn : net curr server RType.NS with
  | none => rw [hn] at hnext; exact absurd hnext (by simp)
  | some resp =>
    rw [hn] at hnext
    simp only [] at hnext
    cases hne : (nsAnswers resp).isEmpty with
    | true => rw [if_pos hne] at hnext; exact absurd hnext (by simp)
    | false =>
      rw [if_neg (by simp [hne])] at hnext
      rcases hsel : selectNextServer (nsAnswers resp)
          (buildGlue resp.additional (nsAnswers resp)) ghbn with ⟨o, evs⟩
      rw [hsel] at hnext
      simp only [] at hnext
      subst hnext
      refine ⟨Event.nsQ curr server :: evs,
        cacheWriteNS c curr (nsAnswers resp)
          (buildGlue resp.additional (nsAnswers resp)), ?_, ?_, ?_⟩
      · simp only [walkStep, hns, hn, hne, Bool.false_eq_true, if_false, hsel]
      · have hevs : evs.filterMap nsQOf = [] := by
          have := select_events_no_nsq (nsAnswers resp)
            (buildGlue resp.additional (nsAnswers resp)) ghbn
          rw [hsel] at this
          exact this
        simp [List.filterMap_cons, nsQOf, hevs]
      · intro s hs
        exact cacheGetNSB_writeNS_ne c curr (nsAnswers resp) _ s hs

/-- The delegation walk along pairwise-distinct, uncached suffixes with
a productive step at each one reaches the end with the chained servers,
and its NS-query events are exactly the suffixes paired with the server
each was asked at, in order. -/
theorem walk_chain (net : Net) (ghbn : Ghbn) :
    ∀ (L : List String) (c : Cache) (srv : Nat → String),
      L.Nodup →
      (∀ s ∈ L, cacheGetNSB c s = none) →
      (∀ k, (hk : k < L.length) →
        stepNextOf net ghbn (L.get ⟨k, hk⟩) (srv k) = some (srv (k + 1))) →
      (walk net ghbn L (srv 0) c).out = WalkOut.done (srv L.length) ∧
      (walk net ghbn L (srv 0) c).trace.filterMap nsQOf =
        List.ofFn (fun k : Fin L.length => (L.get k, srv k.val)) := by
  intro L
  induction L with
  | nil =>
    intro c srv _ _ _
    constructor
    · rfl
    · rfl
  | cons curr rest ih =>
    intro c srv hnd hall hchain
    have hcur : stepNextOf net ghbn curr (srv 0) = some (srv 1) := by
      have := hchain 0 (by simp)
      simpa using this
    have huncached : cacheGetNSB c curr = none := hall curr (by simp)
    obtain ⟨evs, c', hstep, hevs, hpres⟩ :=
      walkStep_uncached_proceed net ghbn curr (srv 0) (srv 1) c huncached hcur
    have hcurrnotin : curr ∉ rest := (List.nodup_cons.mp hnd).1
    have ihres := ih c' (fun k => srv (k + 1)) (List.nodup_cons.mp hnd).2
      (by
        intro s hs
        rw [hpres s (fun he => hcurrnotin (he ▸ hs))]
        exact hall s (by simp [hs]))
      (by
        intro k hk
        have := hchain (k + 1) (by simpa using Nat.succ_lt_succ hk)
        simpa using this)
    have hwalk : walk net ghbn (curr :: rest) (srv 0) c =
        WalkResult.mk (walk net ghbn rest (srv 1) c').out
          (walk net ghbn rest (srv 1) c').cache
          (evs ++ (walk net ghbn rest (srv 1) c').trace) := by
      show (let st := walkStep net ghbn curr (srv 0) c
            match st.kind with
            | StepKind.proceed s' =>
              let r := walk net ghbn rest s' st.cache
              WalkResult.mk r.out r.cache (st.trace ++ r.trace)
            | StepKind.stop s' => WalkResult.mk (WalkOut.done s') st.cache st.trace
            | StepKind.failed => WalkResult.mk WalkOut.fail st.cache st.trace) =
          WalkResult.mk (walk net ghbn rest (srv 1) c').out
            (walk net ghbn rest (srv 1) c').cache
            (evs ++ (walk net ghbn rest (srv 1) c').trace)
      rw [hstep]
    rw [hwalk]
    constructor
    · exact ihres.1
    · show (evs ++ (walk net ghbn rest (srv 1) c').trace).filterMap nsQOf = _
      rw [List.filterMap_append, hevs, ihres.2, List.ofFn_succ]
      rfl

/-- With the `A` bucket absent, the trace of one resolve iteration
begins with the trace of its delegation walk. -/
theorem resolveStep_trace_prefix (net : Net) (ghbn : Ghbn)
    (recur : String → Cache → RunResult) (domain : String) (c : Cache)
    (hA : cacheGetA c domain = none) :
    ∃ rest, (resolveStep net ghbn recur domain c).trace =
      (walk net ghbn (suffixes domain) ROOT_SERVER c).trace ++ rest := by
  unfold resolveStep
  rw [hA]
  rcases hw : walk net ghbn (suffixes domain) ROOT_SERVER c with ⟨o, cc, tt⟩
  cases o with
  | fail => exact ⟨[], by simp⟩
  | done server =>
    cases hnet : net domain server RType.A with
    | none => exact ⟨[Event.aQ domain server], by simp [hnet]⟩
    | some resp =>
      cases hcn : firstCname resp.answers with
      | some t =>
        exact ⟨[Event.aQ domain server] ++ (recur t cc).trace, by simp [hnet, hcn]⟩
      | none =>
        refine ⟨[Event.aQ domain server], ?_⟩
        simp only [hnet, hcn]
        by_cases hips : (resp.answers.filterMap
            (fun r => if r.rtype = RType.A then some r.rdata else none)).isEmpty
        · simp [hips]
        · simp [hips]

/-- C1: delegation-walk order.  With an empty cache and a network
providing a productive delegation at every suffix (`srv` being the
resulting server chain, starting at the root), the NS queries issued
by `resolve` are exactly the suffixes of the domain from most general
to most specific, each asked at the server obtained from the previous
suffix's response (the root for the first). -/
theorem resolve_delegation_walk_order (net : Net) (ghbn : Ghbn) (fuel : Nat)
    (domain : String) (srv : Nat → String)
    (_hlab : 1 ≤ (domainParts domain).length)
    (hroot : srv 0 = ROOT_SERVER)
    (hchain : ∀ k, (hk : k < (suffixes domain).length) →
      stepNextOf net ghbn ((suffixes domain).get ⟨k, hk⟩) (srv k) = some (srv (k + 1))) :
    ((resolveLoop net ghbn (fuel + 1) domain []).trace.filterMap nsQOf).take
        (suffixes domain).length =
      List.ofFn (fun k : Fin (suffixes domain).length =>
        ((suffixes domain).get k, srv k.val)) := by
  have hA : cacheGetA ([] : Cache) domain = none := rfl
  have hchainres := walk_chain net ghbn (suffixes domain) [] srv
    (suffixes_nodup domain) (fun s _ => rfl) hchain
  rw [hroot] at hchainres
  obtain ⟨rest, hr⟩ := resolveStep_trace_prefix net ghbn
    (resolveLoop net ghbn fuel) domain [] hA
  have hunfold : resolveLoop net ghbn (fuel + 1) domain [] =
      resolveStep net ghbn (resolveLoop net ghbn fuel) domain [] := rfl
  rw [hunfold, hr, List.filterMap_append, hchainres.2]
  rw [List.take_left' (by rw [List.length_ofFn])]

/-- C1 witness: resolving `a.b.c` on a three-level glued delegation
issues NS queries for `c`, `b.c`, `a.b.c` in that order, at the root,
then 1.0.0.1, then 2.0.0.2. -/
theorem resolve_delegation_walk_order_witness :
    ((resolveLoop netChain ghbnNone 1 "a.b.c" []).trace.filterMap nsQOf).take
        (suffixes "a.b.c").length =
      List.ofFn (fun k : Fin (suffixes "a.b.c").length =>
        ((suffixes "a.b.c").get k, srvChain k.val)) := by
  refine resolve_delegation_walk_order netChain ghbnNone 0 "a.b.c" srvChain
    (by decide) (by decide) ?_
  intro k hk
  have hk3 : k < 3 := by
    have hlen : (suffixes "a.b.c").length = 3 := by decide
    omega
  interval_cases k
  · exact (by decide : stepNextOf netChain ghbnNone "c" (srvChain 0) = some (srvChain 1))
  · exact (by decide : stepNextOf netChain ghbnNone "b.c" (srvChain 1) = some (srvChain 2))
  · exact (by decide : stepNextOf netChain ghbnNone "a.b.c" (srvChain 2) = some (srvChain 3))

/-- Events of the fallback loop are `gethostbyname` calls. -/
theorem ghbnFallback_events (ghbn : Ghbn) (l : List String) :
    ∀ e ∈ (ghbnFallback ghbn l).2, ∃ h, e = Event.ghbnCall h := by
  induction l with
  | nil => intro e he; simp [ghbnFallback] at he
  | cons ns rest ih =>
    intro e he
    unfold ghbnFallback at he
    cases hg : ghbn (rstripDot ns) with
    | some ip =>
      rw [hg] at he
      simp at he
      exact ⟨rstripDot ns, he⟩
    | none =>
      rw [hg] at he
      simp at he
      rcases he with he | he
      · exact ⟨rstripDot ns, he⟩
      · exact ih e he

/-- Events of server selection are `gethostbyname` calls. -/
theorem selectNextServer_events (nsA : List String)
    (g : List (String × List String)) (ghbn : Ghbn) :
    ∀ e ∈ (selectNextServer nsA g ghbn).2, ∃ h, e = Event.ghbnCall h := by
  intro e he
  unfold selectNextServer at he
  cases hfg : firstGlue nsA g with
  | some ip => rw [hfg] at he; simp at he
  | none => rw [hfg] at he; exact ghbnFallback_events ghbn nsA e he

/-- Complete case analysis of one walk step, as equations. -/
theorem walkStep_eq_cases (net : Net) (ghbn : Ghbn) (curr server : String)
    (c : Cache) :
    (∃ nsB, cacheGetNSB c curr = some nsB ∧
      walkStep net ghbn curr server c = StepResult.mk
        (StepKind.proceed ((firstGlue (strsOf nsB) (cacheGetNSIP c curr)).getD server))
        c []) ∨
    (cacheGetNSB c curr = none ∧ net curr server RType.NS = none ∧
      walkStep net ghbn curr server c =
        StepResult.mk StepKind.failed c [Event.nsQ curr server]) ∨
    (∃ resp, cacheGetNSB c curr = none ∧ net curr server RType.NS = some resp ∧
      (nsAnswers resp).isEmpty = true ∧
      walkStep net ghbn curr server c =
        StepResult.mk (StepKind.stop server) c [Event.nsQ curr server]) ∨
    (∃ resp o evs, cacheGetNSB c curr = none ∧ net curr server RType.NS = some resp ∧
      (nsAnswers resp).isEmpty = false ∧
      selectNextServer (nsAnswers resp) (buildGlue resp.additional (nsAnswers resp))
        ghbn = (o, evs) ∧
      walkStep net ghbn curr server c = StepResult.mk
        (match o with | some ip => StepKind.proceed ip | none => StepKind.failed)
        (cacheWriteNS c curr (nsAnswers resp) (buildGlue resp.additional (nsAnswers resp)))
        (Event.nsQ curr server :: evs)) := by
  rcases hcb : cacheGetNSB c curr with _ | nsB
  · rcases hn : net curr server RType.NS with _ | resp
    · exact Or.inr (Or.inl ⟨rfl, rfl, by simp only [walkStep, hcb, hn]⟩)
    · cases hne : (nsAnswers resp).isEmpty with
      | true =>
        refine Or.inr (Or.inr (Or.inl ⟨resp, rfl, rfl, hne, ?_⟩))
        simp only [walkStep, hcb, hn, hne, if_true]
      | false =>
        rcases hsel : selectNextServer (nsAnswers resp)
            (buildGlue resp.additional (nsAnswers resp)) ghbn with ⟨o, evs⟩
        refine Or.inr (Or.inr (Or.inr ⟨resp, o, evs, rfl, rfl, hne, hsel, ?_⟩))
        cases o with
        | some ip =>
          simp only [walkStep, hcb, hn, hne, Bool.false_eq_true, if_false, hsel]
        | none =>
          simp only [walkStep, hcb, hn, hne, Bool.false_eq_true, if_false, hsel]
  · exact Or.inl ⟨nsB, rfl, by simp only [walkStep, hcb]⟩

/-- Unfolding of the walk at a cons, per step outcome. -/
theorem walk_cons_proceed (net : Net) (ghbn : Ghbn) (curr : String)
    (rest : List String) (server s' : String) (c cc : Cache) (tt : List Event)
    (hst : walkStep net ghbn curr server c =
      StepResult.mk (StepKind.proceed s') cc tt) :
    walk net ghbn (curr :: rest) server c =
      WalkResult.mk (walk net ghbn rest s' cc).out
        (walk net ghbn rest s' cc).cache (tt ++ (walk net ghbn rest s' cc).trace) := by
  show (let st := walkStep net ghbn curr server c
        match st.kind with
        | StepKind.proceed s' =>
          let r := walk net ghbn rest s' st.cache
          WalkResult.mk r.out r.cache (st.trace ++ r.trace)
        | StepKind.stop s' => WalkResult.mk (WalkOut.done s') st.cache st.trace
        | StepKind.failed => WalkResult.mk WalkOut.fail st.cache st.trace) = _
  rw [hst]

theorem walk_cons_stop (net : Net) (ghbn : Ghbn) (curr : String)
    (rest : List String) (server s' : String) (c cc : Cache) (tt : List Event)
    (hst : walkStep net ghbn curr server c =
      StepResult.mk (StepKind.stop s') cc tt) :
    walk net ghbn (curr :: rest) server c =
      WalkResult.mk (WalkOut.done s') cc tt := by
  show (let st := walkStep net ghbn curr server c
        match st.kind with
        | StepKind.proceed s' =>
          let r := walk net ghbn rest s' st.cache
          WalkResult.mk r.out r.cache (st.trace ++ r.trace)
        | StepKind.stop s' => WalkResult.mk (WalkOut.done s') st.cache st.trace
        | StepKind.failed => WalkResult.mk WalkOut.fail st.cache st.trace) = _
  rw [hst]

theorem walk_cons_failed (net : Net) (ghbn : Ghbn) (curr : String)
    (rest : List String) (server : String) (c cc : Cache) (tt : List Event)
    (hst : walkStep net ghbn curr server c = StepResult.mk StepKind.failed cc tt) :
    walk net ghbn (curr :: rest) server c = WalkResult.mk WalkOut.fail cc tt := by
  show (let st := walkStep net ghbn curr server c
        match st.kind with
        | StepKind.proceed s' =>
          let r := walk net ghbn rest s' st.cache
          WalkResult.mk r.out r.cache (st.trace ++ r.trace)
        | StepKind.stop s' => WalkResult.mk (WalkOut.done s') st.cache st.trace
        | StepKind.failed => WalkResult.mk WalkOut.fail st.cache st.trace) = _
  rw [hst]

/-- A step never disturbs an NS bucket present beforehand. -/
theorem walkStep_preserves_nsb (net : Net) (ghbn : Ghbn) (curr server : String)
    (c : Cache) (s : String) (b : BVal) (h : cacheGetNSB c s = some b) :
    cacheGetNSB (walkStep net ghbn curr server c).cache s = some b := by
  rcases walkStep_eq_cases net ghbn curr server c with
    ⟨nsB, hcb, heq⟩ | ⟨hcb, hn, heq⟩ | ⟨resp, hcb, hn, hne, heq⟩ |
    ⟨resp, o, evs, hcb, hn, hne, hsel, heq⟩
  · rw [heq]; exact h
  · rw [heq]; exact h
  · rw [heq]; exact h
  · rw [heq]
    have hcur : s ≠ curr := by
      intro he
      rw [he, hcb] at h
      exact Option.noConfusion h
    exact (cacheGetNSB_writeNS_ne c curr _ _ s hcur).trans h

/-- A step never touches any `A` bucket. -/
theorem walkStep_preserves_a (net : Net) (ghbn : Ghbn) (curr server : String)
    (c : Cache) (d : String) :
    cacheGetA (walkStep net ghbn curr server c).cache d = cacheGetA c d := by
  rcases walkStep_eq_cases net ghbn curr server c with
    ⟨nsB, hcb, heq⟩ | ⟨hcb, hn, heq⟩ | ⟨resp, hcb, hn, hne, heq⟩ |
    ⟨resp, o, evs, hcb, hn, hne, hsel, heq⟩
  · rw [heq]
  · rw [heq]
  · rw [heq]
  · rw [heq]
    exact cacheGetA_writeNS c curr _ _ d

/-- Every event of a step is either this suffix's NS query — possible
only when the suffix was uncached — or a `gethostbyname` call. -/
theorem walkStep_trace_shape (net : Net) (ghbn : Ghbn) (curr server : String)
    (c : Cache) :
    ∀ e ∈ (walkStep net ghbn curr server c).trace,
      (e = Event.nsQ curr server ∧ cacheGetNSB c curr = none) ∨
      ∃ h, e = Event.ghbnCall h := by
  intro e he
  rcases walkStep_eq_cases net ghbn curr server c with
    ⟨nsB, hcb, heq⟩ | ⟨hcb, hn, heq⟩ | ⟨resp, hcb, hn, hne, heq⟩ |
    ⟨resp, o, evs, hcb, hn, hne, hsel, heq⟩
  · rw [heq] at he; simp at he
  · rw [heq] at he; simp at he; exact Or.inl ⟨he, hcb⟩
  · rw [heq] at he; simp at he; exact Or.inl ⟨he, hcb⟩
  · rw [heq] at he
    simp at he
    rcases he with he | he
    · exact Or.inl ⟨he, hcb⟩
    · have hevs := selectNextServer_events (nsAnswers resp)
        (buildGlue resp.additional (nsAnswers resp)) ghbn e
      rw [hsel] at hevs
      exact Or.inr (hevs he)

/-- The walk preserves present NS buckets and never issues an NS query
for a suffix whose bucket was present at walk start. -/
theorem walk_preserves_nsb (net : Net) (ghbn : Ghbn) :
    ∀ (L : List String) (server : String) (c : Cache) (s : String) (b : BVal),
      cacheGetNSB c s = some b →
      cacheGetNSB (walk net ghbn L server c).cache s = some b ∧
      ∀ srv2, Event.nsQ s srv2 ∉ (walk net ghbn L server c).trace := by
  intro L
  induction L with
  | nil =>
    intro server c s b h
    exact ⟨h, by intro srv2 hmem; simp [walk] at hmem⟩
  | cons curr rest ih =>
    intro server c s b h
    have hc' := walkStep_preserves_nsb net ghbn curr server c s b h
    have htr : ∀ srv2, Event.nsQ s srv2 ∉ (walkStep net ghbn curr server c).trace := by
      intro srv2 hmem
      rcases walkStep_trace_shape net ghbn curr server c _ hmem with ⟨he, hcb⟩ | ⟨hh, he⟩
      · injection he with h1 h2
        rw [h1, hcb] at h
        exact Option.noConfusion h
      · exact Event.noConfusion he
    rcases hst : walkStep net ghbn curr server c with ⟨k, cc, tt⟩
    rw [hst] at hc' htr
    simp only [] at hc' htr
    cases k with
    | proceed s' =>
      rw [walk_cons_proceed net ghbn curr rest server s' c cc tt hst]
      have hrec := ih s' cc s b hc'
      refine ⟨hrec.1, ?_⟩
      intro srv2 hmem
      simp only [] at hmem
      rcases List.mem_append.mp hmem with hm | hm
      · exact htr srv2 hm
      · exact hrec.2 srv2 hm
    | stop s' =>
      rw [walk_cons_stop net ghbn curr rest server s' c cc tt hst]
      exact ⟨hc', htr⟩
    | failed =>
      rw [walk_cons_failed net ghbn curr rest server c cc tt hst]
      exact ⟨hc', htr⟩

/-- The walk leaves every `A` bucket unchanged. -/
theorem walk_preserves_a (net : Net) (ghbn : Ghbn) :
    ∀ (L : List String) (server : String) (c : Cache) (d : String),
      cacheGetA (walk net ghbn L server c).cache d = cacheGetA c d := by
  intro L
  induction L with
  | nil => intro server c d; rfl
  | cons curr rest ih =>
    intro server c d
    have hA := walkStep_preserves_a net ghbn curr server c d
    rcases hst : walkStep net ghbn curr server c with ⟨k, cc, tt⟩
    rw [hst] at hA
    simp only [] at hA
    cases k with
    | proceed s' =>
      rw [walk_cons_proceed net ghbn curr rest server s' c cc tt hst]
      exact (ih s' cc d).trans hA
    | stop s' =>
      rw [walk_cons_stop net ghbn curr rest server s' c cc tt hst]
      exact hA
    | failed =>
      rw [walk_cons_failed net ghbn curr rest server c cc tt hst]
      exact hA

/-- The walk issues no address query at all. -/
theorem walk_no_aq (net : Net) (ghbn : Ghbn) :
    ∀ (L : List String) (server : String) (c : Cache) (d srv2 : String),
      Event.aQ d srv2 ∉ (walk net ghbn L server c).trace := by
  intro L
  induction L with
  | nil => intro server c d srv2 hmem; simp [walk] at hmem
  | cons curr rest ih =>
    intro server c d srv2 hmem
    have htr : ∀ e ∈ (walkStep net ghbn curr server c).trace,
        e ≠ Event.aQ d srv2 := by
      intro e he
      rcases walkStep_trace_shape net ghbn curr server c e he with ⟨heq, _⟩ | ⟨hh, heq⟩
      · rw [heq]; intro hcontra; exact Event.noConfusion hcontra
      · rw [heq]; intro hcontra; exact Event.noConfusion hcontra
    rcases hst : walkStep net ghbn curr server c with ⟨k, cc, tt⟩
    rw [hst] at htr
    simp only [] at htr
    cases k with
    | proceed s' =>
      rw [walk_cons_proceed net ghbn curr rest server s' c cc tt hst] at hmem
      simp only [] at hmem
      rcases List.mem_append.mp hmem with hm | hm
      · exact htr _ hm rfl
      · exact ih s' cc d srv2 hm
    | stop s' =>
      rw [walk_cons_stop net ghbn curr rest server s' c cc tt hst] at hmem
      exact htr _ hmem rfl
    | failed =>
      rw [walk_cons_failed net ghbn curr rest server c cc tt hst] at hmem
      exact htr _ hmem rfl

/-- What a trace element of one resolve iteration can be: a walk event,
the single address query, or an event of the alias restart. -/
theorem resolveStep_trace_mem (net : Net) (ghbn : Ghbn)
    (recur : String → Cache → RunResult) (d : String) (c : Cache) (e : Event)
    (o : WalkOut) (cc : Cache) (tt : List Event)
    (hA : cacheGetA c d = none)
    (hw : walk net ghbn (suffixes d) ROOT_SERVER c = WalkResult.mk o cc tt)
    (hmem : e ∈ (resolveStep net ghbn recur d c).trace) :
    e ∈ tt ∨
    (∃ server, o = WalkOut.done server ∧ e = Event.aQ d server) ∨
    (∃ server resp t, o = WalkOut.done server ∧
      net d server RType.A = some resp ∧ firstCname resp.answers = some t ∧
      e ∈ (recur t cc).trace) := by
  unfold resolveStep at hmem
  rw [hA, hw] at hmem
  dsimp only [] at hmem
  cases o with
  | fail => exact Or.inl hmem
  | done server =>
    dsimp only [] at hmem
    cases hnet : net d server RType.A with
    | none =>
      rw [hnet] at hmem
      dsimp only [] at hmem
      rcases List.mem_append.mp hmem with hm | hm
      · exact Or.inl hm
      · simp at hm
        exact Or.inr (Or.inl ⟨server, rfl, hm⟩)
    | some resp =>
      rw [hnet] at hmem
      dsimp only [] at hmem
      cases hcn : firstCname resp.answers with
      | some t =>
        rw [hcn] at hmem
        dsimp only [] at hmem
        rcases List.mem_append.mp hmem with hm | hm
        · rcases List.mem_append.mp hm with hm2 | hm2
          · exact Or.inl hm2
          · simp at hm2
            exact Or.inr (Or.inl ⟨server, rfl, hm2⟩)
        · exact Or.inr (Or.inr ⟨server, resp, t, rfl, hnet, hcn, hm⟩)
      | none =>
        rw [hcn] at hmem
        dsimp only [] at hmem
        by_cases hips : (resp.answers.filterMap
            (fun r => if r.rtype = RType.A then some r.rdata else none)).isEmpty
        · rw [if_pos hips] at hmem
          rcases List.mem_append.mp hmem with hm | hm
          · exact Or.inl hm
          · simp at hm
            exact Or.inr (Or.inl ⟨server, rfl, hm⟩)
        · rw [if_neg hips] at hmem
          rcases List.mem_append.mp hmem with hm | hm
          · exact Or.inl hm
          · simp at hm
            exact Or.inr (Or.inl ⟨server, rfl, hm⟩)

/-- No NS query is ever issued for a suffix whose NS bucket is in the
cache at call time. -/
theorem resolveLoop_no_nsq_cached (net : Net) (ghbn : Ghbn) :
    ∀ (fuel : Nat) (d : String) (c : Cache) (s : String) (b : BVal),
      cacheGetNSB c s = some b →
      ∀ srv2, Event.nsQ s srv2 ∉ (resolveLoop net ghbn fuel d c).trace := by
  intro fuel
  induction fuel with
  | zero =>
    intro d c s b h srv2 hmem
    unfold resolveLoop at hmem
    cases hA : cacheGetA c d with
    | some v => rw [hA] at hmem; simp at hmem
    | none => rw [hA] at hmem; simp at hmem
  | succ fuel ih =>
    intro d c s b h srv2 hmem
    rw [resolveLoop] at hmem
    cases hA : cacheGetA c d with
    | some v =>
      unfold resolveStep at hmem
      rw [hA] at hmem
      simp at hmem
    | none =>
      rcases hw : walk net ghbn (suffixes d) ROOT_SERVER c with ⟨o, cc, tt⟩
      have hwp := walk_preserves_nsb net ghbn (suffixes d) ROOT_SERVER c s b h
      rw [hw] at hwp
      simp only [] at hwp
      rcases resolveStep_trace_mem net ghbn (resolveLoop net ghbn fuel) d c _
          o cc tt hA hw hmem with hm | ⟨server, _, he⟩ | ⟨server, resp, t, _, _, _, hm⟩
      · exact hwp.2 srv2 hm
      · exact Event.noConfusion he
      · exact ih t cc s b hwp.1 srv2 hm

/-- No address query is ever issued for a domain whose `A` bucket is in
the cache at call time. -/
theorem resolveLoop_no_aq_cached (net : Net) (ghbn : Ghbn) :
    ∀ (fuel : Nat) (d : String) (c : Cache) (d' : String) (b : BVal),
      cacheGetA c d' = some b →
      ∀ srv2, Event.aQ d' srv2 ∉ (resolveLoop net ghbn fuel d c).trace := by
  intro fuel
  induction fuel with
  | zero =>
    intro d c d' b h srv2 hmem
    unfold resolveLoop at hmem
    cases hA : cacheGetA c d with
    | some v => rw [hA] at hmem; simp at hmem
    | none => rw [hA] at hmem; simp at hmem
  | succ fuel ih =>
    intro d c d' b h srv2 hmem
    rw [resolveLoop] at hmem
    cases hA : cacheGetA c d with
    | some v =>
      unfold resolveStep at hmem
      rw [hA] at hmem
      simp at hmem
    | none =>
      rcases hw : walk net ghbn (suffixes d) ROOT_SERVER c with ⟨o, cc, tt⟩
      have hwa := walk_preserves_a net ghbn (suffixes d) ROOT_SERVER c d'
      rw [hw] at hwa
      simp only [] at hwa
      have hnoaq := walk_no_aq net ghbn (suffixes d) ROOT_SERVER c d' srv2
      rw [hw] at hnoaq
      simp only [] at hnoaq
      rcases resolveStep_trace_mem net ghbn (resolveLoop net ghbn fuel) d c _
          o cc tt hA hw hmem with hm | ⟨server, _, he⟩ | ⟨server, resp, t, _, _, _, hm⟩
      · exact hnoaq hm
      · injection he with h1 h2
        rw [h1] at h
        rw [hA] at h
        exact Option.noConfusion h
      · exact ih t cc d' b (hwa.trans h) srv2 hm

/-- C7 (amended): the engine never issues a network query for a bucket
already present — if a suffix's NS bucket is present no NS query is
ever sent for that suffix, and if a domain's A bucket is present no
address query is ever sent for that domain (if it is the resolved
domain, no query of any kind is sent, by the cache short-circuit).
The converse direction of the original claim — "absence always leads
to a query" — is false; see the counterexample. -/
theorem cached_bucket_never_requeried :
    (∀ (net : Net) (ghbn : Ghbn) (fuel : Nat) (d : String) (c : Cache)
      (s : String) (b : BVal),
      cacheGetNSB c s = some b →
      ∀ srv2, Event.nsQ s srv2 ∉ (resolveLoop net ghbn fuel d c).trace) ∧
    (∀ (net : Net) (ghbn : Ghbn) (fuel : Nat) (d : String) (c : Cache)
      (d' : String) (b : BVal),
      cacheGetA c d' = some b →
      ∀ srv2, Event.aQ d' srv2 ∉ (resolveLoop net ghbn fuel d c).trace) :=
  ⟨fun net ghbn fuel d c s b h => resolveLoop_no_nsq_cached net ghbn fuel d c s b h,
    fun net ghbn fuel d c d' b h => resolveLoop_no_aq_cached net ghbn fuel d c d' b h⟩

/-- C7 witness: with `b.c`'s NS bucket (and glue) cached, resolving
`a.b.c` never asks anyone for `b.c`'s NS — in particular not the
server 1.0.0.1 that the walk reaches just before `b.c`; and with
`example.com`'s A bucket cached, no address query for it is sent. -/
theorem cached_bucket_never_requeried_witness :
    Event.nsQ "b.c" "1.0.0.1" ∉ (resolveLoop netChain ghbnNone 3 "a.b.c" cacheBC).trace ∧
    Event.aQ "example.com" ROOT_SERVER ∉
      (resolveLoop netNone ghbnNone 3 "example.com" cacheLower).trace :=
  ⟨cached_bucket_never_requeried.1 netChain ghbnNone 3 "a.b.c" cacheBC "b.c"
      (BVal.strs ["ns.b.c"]) (by decide) "1.0.0.1",
    cached_bucket_never_requeried.2 netNone ghbnNone 3 "example.com" cacheLower
      "example.com" (BVal.strs ["1.2.3.4"]) (by decide) ROOT_SERVER⟩

/-- C7 counterexample: the clause "absence of the bucket always leads
to a query" is false.  Resolving `a.b` where `b`'s delegation response
has no NS records stops the walk at `b`: the suffix `a.b` never gets
an NS bucket, yet no NS query for `a.b` is ever issued — the whole
trace is the NS query for `b` and the address query. -/
theorem bucket_absent_without_query_counterexample :
    cacheGetNSB ([] : Cache) "a.b" = none ∧
    cacheGetNSB (resolve netEmptyNS ghbnNone 5 "a.b" []).cache "a.b" = none ∧
    (resolve netEmptyNS ghbnNone 5 "a.b" []).trace =
      [Event.nsQ "b" ROOT_SERVER, Event.aQ "a.b" ROOT_SERVER] ∧
    (resolve netEmptyNS ghbnNone 5 "a.b" []).trace.all
      (fun e => decide ((nsQOf e).map Prod.fst ≠ some "a.b")) = true := by
  decide

/-! Lemmas for the cache inspection API. -/

theorem list_cache_cons (d0 : String) (e0 : Entry) (rest : Cache) :
    list_cache ((d0, e0) :: rest) =
      e0.map (fun bv => (d0, bv.1)) ++ list_cache rest := rfl

theorem dictGet_eq_none_of_not_mem {β : Type} (m : List (String × β)) (k : String)
    (h : k ∉ m.map Prod.fst) : dictGet m k = none := by
  induction m with
  | nil => rfl
  | cons a rest ih =>
    simp only [List.map_cons, List.mem_cons] at h
    push_neg at h
    simp only [dictGet]
    rw [if_neg (fun he => h.1 he.symm)]
    exact ih h.2

theorem mem_list_cache_fst (c : Cache) (d b : String)
    (h : (d, b) ∈ list_cache c) : d ∈ c.map Prod.fst := by
  induction c with
  | nil => simp [list_cache] at h
  | cons de rest ih =>
    rcases de with ⟨d0, e0⟩
    rw [list_cache_cons] at h
    rcases List.mem_append.mp h with hm | hm
    · simp only [List.mem_map] at hm
      obtain ⟨bv, _, hbv⟩ := hm
      have : d = d0 := (Prod.mk.injEq _ _ _ _ ▸ hbv.symm).1
      simp [this]
    · simp [ih hm]

theorem map_eraseIdx' {α β : Type} (f : α → β) :
    ∀ (l : List α) (i : Nat), (l.eraseIdx i).map f = (l.map f).eraseIdx i := by
  intro l
  induction l with
  | nil => intro i; simp
  | cons x t ih =>
    intro i
    cases i with
    | zero => simp
    | succ i => simp [List.eraseIdx_cons_succ, ih i]

theorem dictDel_get_eq_eraseIdx {β : Type} :
    ∀ (e : List (String × β)) (i : Nat) (h : i < e.length),
      (e.map Prod.fst).Nodup →
      dictDel e (e.get ⟨i, h⟩).1 = e.eraseIdx i := by
  intro e
  induction e with
  | nil => intro i h; simp at h
  | cons x t ih =>
    intro i h hnd
    cases i with
    | zero => simp [dictDel]
    | succ i =>
      have hi : i < t.length := by simpa using h
      have hkey : (t.get ⟨i, hi⟩).1 ∈ t.map Prod.fst :=
        List.mem_map_of_mem Prod.fst (t.get_mem i hi)
      have hx : x.1 ∉ t.map Prod.fst := by
        simp only [List.map_cons, List.nodup_cons] at hnd
        exact hnd.1
      have hne : x.1 ≠ ((x :: t).get ⟨i + 1, h⟩).1 := by
        intro he
        rw [List.get_cons_succ] at he
        exact hx (he ▸ hkey)
      simp only [dictDel]
      rw [if_neg hne, List.eraseIdx_cons_succ]
      have := ih i hi (by simp only [List.map_cons, List.nodup_cons] at hnd; exact hnd.2)
      rw [List.get_cons_succ]
      rw [this]

/-- Unfolding of `remove_cache_N` at a valid index. -/
theorem remove_cache_N_valid_eq (c : Cache) (i : Nat) (d b : String)
    (hget : (list_cache c).get? i = some (d, b)) :
    remove_cache_N c (i + 1) =
      (true,
        if (dictDel ((dictGet c d).getD []) b).isEmpty then dictDel c d
        else dictSet c d (dictDel ((dictGet c d).getD []) b)) := by
  have hlen : i < (list_cache c).length := by
    rw [List.get?_eq_some] at hget
    exact hget.1
  unfold remove_cache_N
  rw [if_neg (by omega : ¬ (i + 1 < 1 ∨ (list_cache c).length < i + 1))]
  have harith : i + 1 - 1 = i := rfl
  rw [harith, hget]

theorem dictGet_cons_self {β : Type} (k : String) (v : β) (rest : List (String × β)) :
    dictGet ((k, v) :: rest) k = some v := by
  simp [dictGet]

theorem dictGet_cons_ne {β : Type} (k : String) (v : β) (rest : List (String × β))
    (k' : String) (h : k' ≠ k) : dictGet ((k, v) :: rest) k' = dictGet rest k' := by
  simp only [dictGet]
  rw [if_neg (fun he => h he.symm)]

theorem dictDel_cons_self {β : Type} (k : String) (v : β) (rest : List (String × β)) :
    dictDel ((k, v) :: rest) k = rest := by
  simp [dictDel]

theorem dictDel_cons_ne {β : Type} (k : String) (v : β) (rest : List (String × β))
    (k' : String) (h : k' ≠ k) :
    dictDel ((k, v) :: rest) k' = (k, v) :: dictDel rest k' := by
  simp only [dictDel]
  rw [if_neg (fun he => h he.symm)]

theorem dictSet_cons_self {β : Type} (k : String) (v w : β) (rest : List (String × β)) :
    dictSet ((k, v) :: rest) k w = (k, w) :: rest := by
  simp [dictSet]

theorem dictSet_cons_ne {β : Type} (k : String) (v : β) (rest : List (String × β))
    (k' : String) (w : β) (h : k' ≠ k) :
    dictSet ((k, v) :: rest) k' w = (k, v) :: dictSet rest k' w := by
  simp only [dictSet]
  rw [if_neg (fun he => h he.symm)]

theorem cacheGetBucket_cons_self (d0 : String) (e0 : Entry) (rest : Cache) (b : String) :
    cacheGetBucket ((d0, e0) :: rest) d0 b = dictGet e0 b := by
  unfold cacheGetBucket
  rw [dictGet_cons_self]
  rfl

theorem cacheGetBucket_cons_ne (d0 : String) (e0 : Entry) (rest : Cache)
    (d' b : String) (h : d' ≠ d0) :
    cacheGetBucket ((d0, e0) :: rest) d' b = cacheGetBucket rest d' b := by
  unfold cacheGetBucket
  rw [dictGet_cons_ne _ _ _ _ h]

/-- Core of the removal spec, by induction over the cache. -/
theorem remove_cache_N_master :
    ∀ (c : Cache) (i : Nat) (d b : String),
      cacheWF c →
      (list_cache c).get? i = some (d, b) →
      (remove_cache_N c (i + 1)).1 = true ∧
      list_cache (remove_cache_N c (i + 1)).2 = (list_cache c).eraseIdx i ∧
      (∀ d' b', (d', b') ≠ (d, b) →
        cacheGetBucket (remove_cache_N c (i + 1)).2 d' b' = cacheGetBucket c d' b') ∧
      (dictGet (remove_cache_N c (i + 1)).2 d = none ↔
        ∀ b', (d, b') ∉ (list_cache c).eraseIdx i) := by
  intro c
  induction c with
  | nil => intro i d b _ hget; simp [list_cache] at hget
  | cons de rest ih =>
    rcases de with ⟨d0, e0⟩
    intro i d b hwf hget
    have hget0 := hget
    have hnd0 : d0 ∉ rest.map Prod.fst := by
      have h1 := hwf.1
      simp only [List.map_cons, List.nodup_cons] at h1
      exact h1.1
    have hrestwf : cacheWF rest := by
      refine ⟨?_, ?_⟩
      · have h1 := hwf.1
        simp only [List.map_cons, List.nodup_cons] at h1
        exact h1.2
      · intro de hm
        exact hwf.2 de (List.mem_cons_of_mem _ hm)
    have he0nd : (e0.map Prod.fst).Nodup := (hwf.2 (d0, e0) (List.mem_cons_self _ _)).1
    have he0ne : e0 ≠ [] := (hwf.2 (d0, e0) (List.mem_cons_self _ _)).2
    have hAlen : (e0.map (fun bv => (d0, bv.1))).length = e0.length := by simp
    rw [list_cache_cons] at hget
    by_cases hlt : i < e0.length
    · -- the removed pair lies in the head entry
      have hgete : e0[i]? = some (e0.get ⟨i, hlt⟩) := by
        rw [List.getElem?_eq_getElem hlt]
        rfl
      have hpair : (d, b) = (d0, (e0.get ⟨i, hlt⟩).1) := by
        rw [List.get?_eq_getElem?, List.getElem?_append,
          if_pos (by rw [hAlen]; exact hlt), List.getElem?_map, hgete] at hget
        exact (Option.some.inj hget).symm
      have hd : d0 = d := ((Prod.mk.injEq _ _ _ _ ▸ hpair).1).symm
      have hb : (e0.get ⟨i, hlt⟩).1 = b := ((Prod.mk.injEq _ _ _ _ ▸ hpair).2).symm
      subst hd
      subst hb
      have hdel : dictDel e0 ((e0.get ⟨i, hlt⟩).1) = e0.eraseIdx i :=
        dictDel_get_eq_eraseIdx e0 i hlt he0nd
      have hrm := remove_cache_N_valid_eq ((d0, e0) :: rest) i d0
        ((e0.get ⟨i, hlt⟩).1) hget0
      rw [dictGet_cons_self, Option.getD_some, hdel] at hrm
      by_cases hemp : (e0.eraseIdx i).isEmpty
      · -- removing the last bucket of the head entry
        have he' : e0.eraseIdx i = [] := List.isEmpty_iff.mp hemp
        have hlen1 : e0.length = 1 := by
          have hl := List.length_eraseIdx e0 i
          rw [he'] at hl
          simp only [List.length_nil, if_pos hlt] at hl
          omega
        have hi0 : i = 0 := by omega
        subst hi0
        obtain ⟨x, hx⟩ : ∃ x, e0 = [x] := by
          cases e0 with
          | nil => exact absurd rfl he0ne
          | cons x t =>
            cases t with
            | nil => exact ⟨x, rfl⟩
            | cons y t2 => simp at hlen1
        subst hx
        rw [if_pos hemp, dictDel_cons_self] at hrm
        refine ⟨by rw [hrm], ?_, ?_, ?_⟩
        · rw [hrm]
          simp [list_cache_cons]
        · intro d' b' hne'
          rw [hrm]
          by_cases hd' : d' = d0
          · subst hd'
            have hbne : b' ≠ x.1 := by
              intro he
              exact hne' (by rw [he]; rfl)
            rw [cacheGetBucket_cons_self]
            unfold cacheGetBucket
            rw [dictGet_eq_none_of_not_mem rest d' hnd0]
            simp only [Option.none_bind]
            rw [dictGet_cons_ne _ _ _ _ hbne]
            rfl
          · rw [cacheGetBucket_cons_ne _ _ _ _ _ hd']
        · rw [hrm]
          constructor
          · intro _ b' hmem
            simp only [list_cache_cons, List.map_cons, List.map_nil,
              List.singleton_append, List.eraseIdx_cons_zero] at hmem
            exact hnd0 (mem_list_cache_fst rest d0 b' hmem)
          · intro _
            exact dictGet_eq_none_of_not_mem rest d0 hnd0
      · -- other buckets remain in the head entry
        have he'ne : e0.eraseIdx i ≠ [] := fun hh => hemp (by rw [hh]; rfl)
        rw [if_neg hemp, dictSet_cons_self] at hrm
        refine ⟨by rw [hrm], ?_, ?_, ?_⟩
        · rw [hrm, list_cache_cons, list_cache_cons, map_eraseIdx',
            List.eraseIdx_append_of_lt_length (by rw [hAlen]; exact hlt)]
        · intro d' b' hne'
          rw [hrm]
          by_cases hd' : d' = d0
          · subst hd'
            have hbne : b' ≠ (e0.get ⟨i, hlt⟩).1 := by
              intro he
              exact hne' (by rw [he])
            rw [cacheGetBucket_cons_self, cacheGetBucket_cons_self, ← hdel]
            exact dictGet_dictDel_ne e0 _ b' hbne
          · rw [cacheGetBucket_cons_ne _ _ _ _ _ hd',
              cacheGetBucket_cons_ne _ _ _ _ _ hd']
        · rw [hrm]
          constructor
          · intro hnone
            rw [dictGet_cons_self] at hnone
            exact absurd hnone (by simp)
          · intro hall
            exfalso
            obtain ⟨y, t, hyt⟩ := List.exists_cons_of_ne_nil he'ne
            apply hall y.1
            rw [list_cache_cons,
              List.eraseIdx_append_of_lt_length (by rw [hAlen]; exact hlt),
              ← map_eraseIdx']
            apply List.mem_append_left
            rw [hyt]
            exact List.mem_map_of_mem _ (List.mem_cons_self _ _)
    · -- the removed pair lies in the tail
      have hge : e0.length ≤ i := Nat.le_of_not_lt hlt
      have hgetr : (list_cache rest).get? (i - e0.length) = some (d, b) := by
        rw [List.get?_eq_getElem?, List.getElem?_append,
          if_neg (by rw [hAlen]; omega), hAlen] at hget
        rw [List.get?_eq_getElem?]
        exact hget
      have hdne : d ≠ d0 := by
        have hmem := List.get?_mem hgetr
        have hfst := mem_list_cache_fst rest d b hmem
        intro he
        rw [he] at hfst
        exact hnd0 hfst
      have hIH := ih (i - e0.length) d b hrestwf hgetr
      have hrm := remove_cache_N_valid_eq ((d0, e0) :: rest) i d b hget0
      have hrmr := remove_cache_N_valid_eq rest (i - e0.length) d b hgetr
      rw [dictGet_cons_ne _ _ _ _ hdne] at hrm
      have hcons : (remove_cache_N ((d0, e0) :: rest) (i + 1)).2 =
          (d0, e0) :: (remove_cache_N rest (i - e0.length + 1)).2 := by
        rw [hrm, hrmr]
        by_cases hE : (dictDel ((dictGet rest d).getD []) b).isEmpty
        · rw [if_pos hE, if_pos hE, dictDel_cons_ne _ _ _ _ hdne]
        · rw [if_neg hE, if_neg hE, dictSet_cons_ne _ _ _ _ _ hdne]
      refine ⟨by rw [hrm], ?_, ?_, ?_⟩
      · rw [hcons, list_cache_cons, list_cache_cons, hIH.2.1,
          List.eraseIdx_append_of_length_le (by rw [hAlen]; exact hge), hAlen]
      · intro d' b' hne'
        rw [hcons]
        by_cases hd' : d' = d0
        · subst hd'
          rw [cacheGetBucket_cons_self, cacheGetBucket_cons_self]
        · rw [cacheGetBucket_cons_ne _ _ _ _ _ hd',
            cacheGetBucket_cons_ne _ _ _ _ _ hd']
          exact hIH.2.2.1 d' b' hne'
      · rw [hcons, dictGet_cons_ne _ _ _ _ hdne, list_cache_cons,
          List.eraseIdx_append_of_length_le (by rw [hAlen]; exact hge), hAlen]
        constructor
        · intro hnone b' hmem
          rcases List.mem_append.mp hmem with hm | hm
          · simp only [List.mem_map] at hm
            obtain ⟨bv, _, hbv⟩ := hm
            exact hdne (Prod.mk.injEq _ _ _ _ ▸ hbv.symm).1
          · exact (hIH.2.2.2.mp hnone) b' hm
        · intro hall
          apply hIH.2.2.2.mpr
          intro b' hmem
          exact hall b' (List.mem_append_right _ hmem)

/-- C9: `remove_cache_N` with a valid 1-based index removes exactly the
index-th (domain, bucket) pair of the enumeration (domain insertion
order, then bucket insertion order), leaves every other pair's value
unchanged, and erases the domain's entry entirely exactly when no pair
of that domain remains; an index outside `[1, count]` is a rejected
no-op. -/
theorem remove_cache_N_spec (c : Cache) (n : Nat) (hwf : cacheWF c) :
    (∀ d b, 1 ≤ n → (list_cache c).get? (n - 1) = some (d, b) →
      (remove_cache_N c n).1 = true ∧
      list_cache (remove_cache_N c n).2 = (list_cache c).eraseIdx (n - 1) ∧
      (∀ d' b', (d', b') ≠ (d, b) →
        cacheGetBucket (remove_cache_N c n).2 d' b' = cacheGetBucket c d' b') ∧
      (dictGet (remove_cache_N c n).2 d = none ↔
        ∀ b', (d, b') ∉ (list_cache c).eraseIdx (n - 1))) ∧
    (n < 1 ∨ (list_cache c).length < n → remove_cache_N c n = (false, c)) := by
  constructor
  · intro d b h1 hget
    obtain ⟨i, rfl⟩ : ∃ i, n = i + 1 := ⟨n - 1, by omega⟩
    exact remove_cache_N_master c i d b hwf hget
  · intro hinv
    unfold remove_cache_N
    rw [if_pos hinv]

/-- C9 witness: the spec's example.  With entries enumerated as
`[(x.com, NS), (x.com, A), (y.com, A)]`, `RemoveAt 2` removes exactly
`(x.com, A)` and keeps the other two values; `RemoveAt 0` and
`RemoveAt 4` are rejected no-ops. -/
theorem remove_cache_N_spec_witness :
    ((remove_cache_N cacheXY 2).1 = true ∧
      list_cache (remove_cache_N cacheXY 2).2 = (list_cache cacheXY).eraseIdx 1 ∧
      (∀ d' b', (d', b') ≠ ("x.com", "A") →
        cacheGetBucket (remove_cache_N cacheXY 2).2 d' b' =
          cacheGetBucket cacheXY d' b') ∧
      (dictGet (remove_cache_N cacheXY 2).2 "x.com" = none ↔
        ∀ b', ("x.com", b') ∉ (list_cache cacheXY).eraseIdx 1)) ∧
    remove_cache_N cacheXY 0 = (false, cacheXY) ∧
    remove_cache_N cacheXY 4 = (false, cacheXY) :=
  ⟨(remove_cache_N_spec cacheXY 2 (by unfold cacheWF; decide)).1 "x.com" "A" (by decide) (by decide),
    (remove_cache_N_spec cacheXY 0 (by unfold cacheWF; decide)).2 (Or.inl (by decide)),
    (remove_cache_N_spec cacheXY 4 (by unfold cacheWF; decide)).2 (Or.inr (by decide))⟩

/-- If the walk traverses `k` productive uncached steps and the NS
exchange of the (k+1)-th suffix fails, the walk fails and its very
last event is that failing NS query. -/
theorem walk_fails_at (net : Net) (ghbn : Ghbn) :
    ∀ (L : List String) (c : Cache) (srv : Nat → String) (k : Nat) (hk : k < L.length),
      L.Nodup →
      (∀ s ∈ L, cacheGetNSB c s = none) →
      (∀ j, (hj : j < k) →
        stepNextOf net ghbn (L.get ⟨j, Nat.lt_trans hj hk⟩) (srv j) = some (srv (j + 1))) →
      net (L.get ⟨k, hk⟩) (srv k) RType.NS = none →
      (walk net ghbn L (srv 0) c).out = WalkOut.fail ∧
      (walk net ghbn L (srv 0) c).trace.getLast? =
        some (Event.nsQ (L.get ⟨k, hk⟩) (srv k)) := by
  intro L
  induction L with
  | nil => intro c srv k hk; exact absurd hk (by simp)
  | cons curr rest ih =>
    intro c srv k hk hnd hall hchain hfail
    cases k with
    | zero =>
      have huncached : cacheGetNSB c curr = none := hall curr (List.mem_cons_self _ _)
      have hfail' : net curr (srv 0) RType.NS = none := hfail
      have hstep : walkStep net ghbn curr (srv 0) c =
          StepResult.mk StepKind.failed c [Event.nsQ curr (srv 0)] := by
        simp only [walkStep, huncached, hfail']
      rw [walk_cons_failed net ghbn curr rest (srv 0) c c [Event.nsQ curr (srv 0)] hstep]
      exact ⟨rfl, by simp⟩
    | succ j =>
      have hj' : j < rest.length := Nat.lt_of_succ_lt_succ hk
      have hcur : stepNextOf net ghbn curr (srv 0) = some (srv 1) :=
        hchain 0 (Nat.succ_pos j)
      obtain ⟨evs, c', hstep, hevs, hpres⟩ :=
        walkStep_uncached_proceed net ghbn curr (srv 0) (srv 1) c
          (hall curr (List.mem_cons_self _ _)) hcur
      rw [walk_cons_proceed net ghbn curr rest (srv 0) (srv 1) c c' evs hstep]
      have hcurrnotin : curr ∉ rest := (List.nodup_cons.mp hnd).1
      have hrec := ih c' (fun m => srv (m + 1)) j hj' (List.nodup_cons.mp hnd).2
        (by
          intro s hs
          rw [hpres s (fun he => hcurrnotin (he ▸ hs))]
          exact hall s (List.mem_cons_of_mem _ hs))
        (by
          intro m hm
          exact hchain (m + 1) (Nat.succ_lt_succ hm))
        hfail
      refine ⟨hrec.1, ?_⟩
      have hne : (walk net ghbn rest (srv 1) c').trace ≠ [] := by
        intro he
        have h2 := hrec.2
        rw [he] at h2
        simp at h2
      show (evs ++ (walk net ghbn rest (srv 1) c').trace).getLast? = _
      rw [List.getLast?_append_of_ne_nil _ hne]
      exact hrec.2

/-- C6: the single failure signal.  (1) `get_dns_record` yields no
result exactly on transport/header failure, transaction-id mismatch,
non-success response code, or section parse failure — all collapsed
into the same `none`, indistinguishable to the caller.  (2) A codec
failure on the NS query of any step of the delegation walk — position
`k`, reached through `k` productive uncached steps along the server
chain `srv` — makes the whole `resolve` call return no result, and
that failing exchange is the last external action of the run: no
retry, no alternate server.  (3) A codec failure on the address query
likewise fails the whole call, with that query as the final action
after the walk's events. -/
theorem codec_failure_contract :
    (∀ (x : Option Wire) (qid : Nat),
      get_dns_record x qid = none ↔
        x = none ∨ ∃ w, x = some w ∧
          (w.hdrId ≠ qid ∨ w.rcode ≠ 0 ∨ w.sections = none)) ∧
    (∀ (wire : String → String → RType → Option Wire)
      (qid : String → String → RType → Nat) (ghbn : Ghbn) (fuel : Nat)
      (domain : String) (c : Cache) (srv : Nat → String) (k : Nat)
      (hk : k < (suffixes domain).length),
      cacheGetA c domain = none →
      (∀ s ∈ suffixes domain, cacheGetNSB c s = none) →
      srv 0 = ROOT_SERVER →
      (∀ j, (hj : j < k) →
        stepNextOf (mkNet wire qid) ghbn
          ((suffixes domain).get ⟨j, Nat.lt_trans hj hk⟩) (srv j) = some (srv (j + 1))) →
      get_dns_record (wire ((suffixes domain).get ⟨k, hk⟩) (srv k) RType.NS)
        (qid ((suffixes domain).get ⟨k, hk⟩) (srv k) RType.NS) = none →
      (resolveLoop (mkNet wire qid) ghbn (fuel + 1) domain c).result = none ∧
      (resolveLoop (mkNet wire qid) ghbn (fuel + 1) domain c).trace.getLast? =
        some (Event.nsQ ((suffixes domain).get ⟨k, hk⟩) (srv k))) ∧
    (∀ (wire : String → String → RType → Option Wire)
      (qid : String → String → RType → Nat) (ghbn : Ghbn) (fuel : Nat)
      (domain server : String) (c c1 : Cache) (evs : List Event),
      cacheGetA c domain = none →
      walk (mkNet wire qid) ghbn (suffixes domain) ROOT_SERVER c =
        WalkResult.mk (WalkOut.done server) c1 evs →
      get_dns_record (wire domain server RType.A) (qid domain server RType.A) = none →
      resolveLoop (mkNet wire qid) ghbn (fuel + 1) domain c =
        RunResult.mk none c1 (evs ++ [Event.aQ domain server])) := by
  refine ⟨?_, ?_, ?_⟩
  · intro x qid
    cases x with
    | none => simp [get_dns_record]
    | some w =>
      by_cases h : w.hdrId ≠ qid ∨ w.rcode ≠ 0
      · simp only [get_dns_record, if_pos h]
        constructor
        · intro _
          exact Or.inr ⟨w, rfl, h.elim (fun h1 => Or.inl h1) (fun h2 => Or.inr (Or.inl h2))⟩
        · intro _; trivial
      · simp only [get_dns_record, if_neg h]
        push_neg at h
        constructor
        · intro hs
          exact Or.inr ⟨w, rfl, Or.inr (Or.inr hs)⟩
        · rintro (hx | ⟨w', hw', hcase⟩)
          · exact absurd hx (by simp)
          · cases Option.some.inj hw'
            rcases hcase with h1 | h2 | h3
            · exact absurd h.1 h1
            · exact absurd h.2 h2
            · exact h3
  · intro wire qid ghbn fuel domain c srv k hk hA hall hroot hchain hcodec
    have hfail : mkNet wire qid ((suffixes domain).get ⟨k, hk⟩) (srv k) RType.NS = none :=
      hcodec
    have hw := walk_fails_at (mkNet wire qid) ghbn (suffixes domain) c srv k hk
      (suffixes_nodup domain) hall hchain hfail
    rw [hroot] at hw
    have hunfold : resolveLoop (mkNet wire qid) ghbn (fuel + 1) domain c =
        resolveStep (mkNet wire qid) ghbn (resolveLoop (mkNet wire qid) ghbn fuel)
          domain c := rfl
    rw [hunfold]
    unfold resolveStep
    rw [hA]
    rcases hwalk : walk (mkNet wire qid) ghbn (suffixes domain) ROOT_SERVER c
      with ⟨o, cc, tt⟩
    rw [hwalk] at hw
    simp only [] at hw
    have ho : o = WalkOut.fail := hw.1
    subst ho
    dsimp only []
    exact ⟨rfl, hw.2⟩
  · intro wire qid ghbn fuel domain server c c1 evs hA hw hfail
    have hnet : mkNet wire qid domain server RType.A = none := hfail
    rw [resolveLoop]
    unfold resolveStep
    rw [hA, hw]
    simp only [hnet]

/-- C6 witness: each branch at a concrete input.  (1) a response with a
mismatched transaction id decodes to nothing; (2) resolving `a.b`,
where the NS exchange for `b` at the root succeeds (position 0 is
productive) and the NS exchange for `a.b` at the referred server
5.5.5.5 raises, fails the whole resolution with that second-step query
as the final external action; (3) a raising address exchange after a
successful walk for `x` fails the whole resolution with no further
exchange. -/
theorem codec_failure_contract_witness :
    get_dns_record (some (Wire.mk 1 0 (some (DnsResponse.mk [] [] [])))) 0 = none ∧
    ((resolveLoop (mkNet wireC6b qidZero) ghbnNone 3 "a.b" []).result = none ∧
      (resolveLoop (mkNet wireC6b qidZero) ghbnNone 3 "a.b" []).trace.getLast? =
        some (Event.nsQ "a.b" "5.5.5.5")) ∧
    resolveLoop (mkNet wireC6 qidZero) ghbnNone 3 "x" [] =
      RunResult.mk none
        [("x", [("NS", BVal.strs ["ns.x"]),
                ("NS_IP", BVal.ipmap [("ns.x", ["5.5.5.5"])])])]
        ([Event.nsQ "x" ROOT_SERVER] ++ [Event.aQ "x" "5.5.5.5"]) := by
  refine ⟨?_, ?_, ?_⟩
  · exact (codec_failure_contract.1
      (some (Wire.mk 1 0 (some (DnsResponse.mk [] [] [])))) 0).mpr
      (Or.inr ⟨Wire.mk 1 0 (some (DnsResponse.mk [] [] [])), rfl, Or.inl (by decide)⟩)
  · have hchain : ∀ j, (hj : j < 1) →
        stepNextOf (mkNet wireC6b qidZero) ghbnNone
          ((suffixes "a.b").get ⟨j, Nat.lt_trans hj (by decide)⟩) (srvC6b j) =
          some (srvC6b (j + 1)) := by
      intro j hj
      interval_cases j
      exact (by decide : stepNextOf (mkNet wireC6b qidZero) ghbnNone "b" (srvC6b 0) =
        some (srvC6b 1))
    have h := codec_failure_contract.2.1 wireC6b qidZero ghbnNone 2 "a.b" [] srvC6b 1
      (by decide) rfl (fun s _ => rfl) (by decide) hchain
      (by exact (by decide : get_dns_record (wireC6b "a.b" "5.5.5.5" RType.NS) 0 = none))
    exact ⟨h.1, h.2⟩
  · exact codec_failure_contract.2.2 wireC6 qidZero ghbnNone 2 "x" "5.5.5.5" []
      [("x", [("NS", BVal.strs ["ns.x"]),
              ("NS_IP", BVal.ipmap [("ns.x", ["5.5.5.5"])])])]
      [Event.nsQ "x" ROOT_SERVER] (by decide) (by decide) (by decide)

/-- Every value in a glue map built by `buildGlue` is a non-empty
(one-element) list, so taking `[0]` of it is safe. -/
theorem buildGlue_values_ne_nil (add : List RRec) (nsA : List String)
    (ns : String) (ips : List String)
    (h : dictGet (buildGlue add nsA) ns = some ips) : ips ≠ [] := by
  have key : ∀ (l : List RRec) (m : List (String × List String)),
      (∀ ns' ips', dictGet m ns' = some ips' → ips' ≠ []) →
      ∀ ns' ips', dictGet (l.foldl
        (fun m r =>
          if r.rtype = RType.A ∧ rstripDot r.rname ∈ nsA then
            dictSet m (rstripDot r.rname) [r.rdata]
          else m) m) ns' = some ips' → ips' ≠ [] := by
    intro l
    induction l with
    | nil => intro m hm ns' ips' h'; exact hm ns' ips' h'
    | cons r rest ih =>
      intro m hm ns' ips' h'
      refine ih _ ?_ ns' ips' h'
      intro ns'' ips'' h''
      simp only [] at h''
      by_cases hc : r.rtype = RType.A ∧ rstripDot r.rname ∈ nsA
      · rw [if_pos hc] at h''
        by_cases he : ns'' = rstripDot r.rname
        · subst he
          rw [dictGet_dictSet_self] at h''
          cases Option.some.inj h''
          simp
        · rw [dictGet_dictSet_ne _ _ _ _ he] at h''
          exact hm ns'' ips'' h''
      · rw [if_neg hc] at h''
        exact hm ns'' ips'' h''
  exact key add [] (by intro ns' ips' h'; simp [dictGet] at h') ns ips h

/-- C4: next-hop server selection.
(1) If some nameserver in the list has glue, the first such hostname
wins, the chosen server is the (single) IP stored for it, and the
system fallback contributes no call.
(2) With no glue at all, selection is exactly the fallback loop.
(3) The fallback tries `gethostbyname` once per candidate in order and
the first success wins, having called it exactly on the prefix up to
and including the winner.
(4) If every call fails, selection yields nothing after calling it on
every candidate.
(5) A failed selection fails the walk, and
(6) a failed walk makes the whole `resolve` call return no result. -/
theorem next_hop_server_selection :
    (∀ (nsA : List String) (add : List RRec) (ghbn : Ghbn) (ns0 : String),
      nsA.find? (fun ns => (dictGet (buildGlue add nsA) ns).isSome) = some ns0 →
      ∃ ips, dictGet (buildGlue add nsA) ns0 = some ips ∧ ips ≠ [] ∧
        selectNextServer nsA (buildGlue add nsA) ghbn = (ips.head?, [])) ∧
    (∀ (nsA : List String) (g : List (String × List String)) (ghbn : Ghbn),
      (∀ ns ∈ nsA, dictGet g ns = none) →
      selectNextServer nsA g ghbn = ghbnFallback ghbn nsA) ∧
    (∀ (ghbn : Ghbn) (nsA : List String) (i : Nat) (nsI ip : String),
      (∀ ns ∈ nsA.take i, ghbn (rstripDot ns) = none) →
      nsA.get? i = some nsI →
      ghbn (rstripDot nsI) = some ip →
      ghbnFallback ghbn nsA =
        (some ip, (nsA.take (i + 1)).map (fun ns => Event.ghbnCall (rstripDot ns)))) ∧
    (∀ (ghbn : Ghbn) (nsA : List String),
      (∀ ns ∈ nsA, ghbn (rstripDot ns) = none) →
      ghbnFallback ghbn nsA =
        (none, nsA.map (fun ns => Event.ghbnCall (rstripDot ns)))) ∧
    (∀ (net : Net) (ghbn : Ghbn) (curr server : String) (c : Cache)
      (rest : List String) (resp : DnsResponse),
      cacheGetNSB c curr = none →
      net curr server RType.NS = some resp →
      (nsAnswers resp).isEmpty = false →
      (selectNextServer (nsAnswers resp)
        (buildGlue resp.additional (nsAnswers resp)) ghbn).1 = none →
      (walk net ghbn (curr :: rest) server c).out = WalkOut.fail) ∧
    (∀ (net : Net) (ghbn : Ghbn) (fuel : Nat) (domain : String) (c : Cache),
      cacheGetA c domain = none →
      (walk net ghbn (suffixes domain) ROOT_SERVER c).out = WalkOut.fail →
      (resolveLoop net ghbn (fuel + 1) domain c).result = none) := by
  refine ⟨?_, ?_, ?_, ?_, ?_, ?_⟩
  · intro nsA add ghbn ns0 hfind
    have hsome := List.find?_some hfind
    cases hips : dictGet (buildGlue add nsA) ns0 with
    | none => rw [hips] at hsome; simp at hsome
    | some ips =>
      have hne := buildGlue_values_ne_nil add nsA ns0 ips hips
      refine ⟨ips, rfl, hne, ?_⟩
      obtain ⟨a, t, rfl⟩ := List.exists_cons_of_ne_nil hne
      unfold selectNextServer firstGlue
      rw [hfind]
      simp [hips]
  · intro nsA g ghbn hg
    have hfind : nsA.find? (fun ns => (dictGet g ns).isSome) = none := by
      rw [List.find?_eq_none]
      intro ns hns
      simp [hg ns hns]
    unfold selectNextServer firstGlue
    rw [hfind]
    rfl
  · intro ghbn nsA
    induction nsA with
    | nil => intro i nsI ip _ hget _; simp at hget
    | cons ns rest ih =>
      intro i nsI ip htake hget hip
      cases i with
      | zero =>
        cases Option.some.inj hget
        unfold ghbnFallback
        rw [hip]
        rfl
      | succ i =>
        have hns : ghbn (rstripDot ns) = none := by
          refine htake ns ?_
          simp [List.take_succ_cons]
        have hr := ih i nsI ip
          (fun x hx => htake x (by simp [List.take_succ_cons, hx]))
          (by simpa using hget) hip
        unfold ghbnFallback
        rw [hns, hr]
        simp [List.take_succ_cons]
  · intro ghbn nsA hall
    induction nsA with
    | nil => rfl
    | cons ns rest ih =>
      have hns : ghbn (rstripDot ns) = none := hall ns (by simp)
      have hr := ih (fun x hx => hall x (by simp [hx]))
      unfold ghbnFallback
      rw [hns, hr]
      rfl
  · intro net ghbn curr server c rest resp hns hresp hne hsel
    have hstep : (walkStep net ghbn curr server c).kind = StepKind.failed := by
      rcases hsel2 : selectNextServer (nsAnswers resp)
          (buildGlue resp.additional (nsAnswers resp)) ghbn with ⟨o, evs⟩
      rw [hsel2] at hsel
      simp only at hsel
      subst hsel
      simp only [walkStep, hns, hresp, hne, Bool.false_eq_true, if_false, hsel2]
    rcases hw : walkStep net ghbn curr server c with ⟨k, cc, tt⟩
    have hk : k = StepKind.failed := by rw [hw] at hstep; exact hstep
    subst hk
    show (let st := walkStep net ghbn curr server c
          match st.kind with
          | StepKind.proceed s' =>
            let r := walk net ghbn rest s' st.cache
            WalkResult.mk r.out r.cache (st.trace ++ r.trace)
          | StepKind.stop s' => WalkResult.mk (WalkOut.done s') st.cache st.trace
          | StepKind.failed => WalkResult.mk WalkOut.fail st.cache st.trace).out =
        WalkOut.fail
    rw [hw]
  · intro net ghbn fuel domain c hA hfail
    rw [resolveLoop]
    unfold resolveStep
    rw [hA]
    rcases hw : walk net ghbn (suffixes domain) ROOT_SERVER c with ⟨o, cc, tt⟩
    rw [hw] at hfail
    simp only at hfail
    subst hfail
    rfl

/-- C4 witness: each branch at a concrete input — glue preferred with
no fallback call; glueless selection equal to the fallback; fallback
first success at the second candidate after one failed call; fallback
exhaustion; a glueless, fallback-less referral failing the walk and
the whole resolution of `s`. -/
theorem next_hop_server_selection_witness :
    (∃ ips, dictGet (buildGlue [⟨"n2", RType.A, "9.9.9.9"⟩] ["n1", "n2"]) "n2" =
        some ips ∧ ips ≠ [] ∧
      selectNextServer ["n1", "n2"] (buildGlue [⟨"n2", RType.A, "9.9.9.9"⟩] ["n1", "n2"])
        ghbnNone = (ips.head?, [])) ∧
    selectNextServer ["n1", "n2"] [] ghbnN2 = ghbnFallback ghbnN2 ["n1", "n2"] ∧
    ghbnFallback ghbnN2 ["n1", "n2"] =
      (some "2.2.2.2", (["n1", "n2"].take 2).map (fun ns => Event.ghbnCall (rstripDot ns))) ∧
    ghbnFallback ghbnNone ["n1", "n2"] =
      (none, ["n1", "n2"].map (fun ns => Event.ghbnCall (rstripDot ns))) ∧
    (walk netNoGlue ghbnNone ["s"] ROOT_SERVER []).out = WalkOut.fail ∧
    (resolveLoop netNoGlue ghbnNone 3 "s" []).result = none :=
  ⟨next_hop_server_selection.1 ["n1", "n2"] [⟨"n2", RType.A, "9.9.9.9"⟩]
      ghbnNone "n2" (by decide),
    next_hop_server_selection.2.1 ["n1", "n2"] [] ghbnN2 (by decide),
    next_hop_server_selection.2.2.1 ghbnN2 ["n1", "n2"] 1 "n2" "2.2.2.2"
      (by decide) (by decide) (by decide),
    next_hop_server_selection.2.2.2.1 ghbnNone ["n1", "n2"] (by decide),
    next_hop_server_selection.2.2.2.2.1 netNoGlue ghbnNone "s" ROOT_SERVER [] []
      ⟨[], [⟨"s", RType.NS, "n1"⟩], []⟩ (by decide) (by decide) (by decide) (by decide),
    next_hop_server_selection.2.2.2.2.2 netNoGlue ghbnNone 2 "s" []
      (by decide) (by decide)⟩

/-- C5 (amended): for a network NS query that returns a response, when
the extracted NS list is non-empty, the NS list and the glue map are
written into the cache for that suffix — fully replacing any prior
bucket values, whatever the prior cache held — and the continuation
(server selection) runs on the updated cache; when the extracted NS
list is empty, nothing at all is written and the walk stops at this
suffix, keeping the current server for the address query. -/
theorem ns_write_before_selection (net : Net) (ghbn : Ghbn)
    (curr server : String) (c : Cache) (resp : DnsResponse) (rest : List String)
    (hns : cacheGetNSB c curr = none)
    (hresp : net curr server RType.NS = some resp) :
    ((nsAnswers resp).isEmpty = false →
      walkStep net ghbn curr server c =
        (match selectNextServer (nsAnswers resp)
            (buildGlue resp.additional (nsAnswers resp)) ghbn with
         | (some ip, evs) =>
           StepResult.mk (StepKind.proceed ip)
             (cacheWriteNS c curr (nsAnswers resp)
               (buildGlue resp.additional (nsAnswers resp)))
             (Event.nsQ curr server :: evs)
         | (none, evs) =>
           StepResult.mk StepKind.failed
             (cacheWriteNS c curr (nsAnswers resp)
               (buildGlue resp.additional (nsAnswers resp)))
             (Event.nsQ curr server :: evs)) ∧
      cacheGetNSB (cacheWriteNS c curr (nsAnswers resp)
          (buildGlue resp.additional (nsAnswers resp))) curr =
        some (BVal.strs (nsAnswers resp)) ∧
      cacheGetNSIP (cacheWriteNS c curr (nsAnswers resp)
          (buildGlue resp.additional (nsAnswers resp))) curr =
        buildGlue resp.additional (nsAnswers resp)) ∧
    ((nsAnswers resp).isEmpty = true →
      walkStep net ghbn curr server c =
        StepResult.mk (StepKind.stop server) c [Event.nsQ curr server] ∧
      walk net ghbn (curr :: rest) server c =
        WalkResult.mk (WalkOut.done server) c [Event.nsQ curr server]) := by
  constructor
  · intro hne
    refine ⟨?_, cacheGetNSB_writeNS_self c curr (nsAnswers resp) _,
      cacheGetNSIP_writeNS_self c curr (nsAnswers resp) _⟩
    simp only [walkStep, hns, hresp, hne, Bool.false_eq_true, if_false]
  · intro hemp
    have hstep : walkStep net ghbn curr server c =
        StepResult.mk (StepKind.stop server) c [Event.nsQ curr server] := by
      simp only [walkStep, hns, hresp, hemp, if_true]
    refine ⟨hstep, ?_⟩
    show (let st := walkStep net ghbn curr server c
          match st.kind with
          | StepKind.proceed s' =>
            let r := walk net ghbn rest s' st.cache
            WalkResult.mk r.out r.cache (st.trace ++ r.trace)
          | StepKind.stop s' => WalkResult.mk (WalkOut.done s') st.cache st.trace
          | StepKind.failed => WalkResult.mk WalkOut.fail st.cache st.trace) =
        WalkResult.mk (WalkOut.done server) c [Event.nsQ curr server]
    rw [hstep]

/-- C5 witness: both regimes at concrete inputs.  A glued referral for
`c` is written (NS and NS_IP buckets, replacing nothing) before the
glue-based selection; an NS-less response for `b` stops the walk
without writing. -/
theorem ns_write_before_selection_witness :
    walkStep netChain ghbnNone "c" ROOT_SERVER [] =
      StepResult.mk (StepKind.proceed "1.0.0.1")
        (cacheWriteNS [] "c" ["ns.c"] [("ns.c", ["1.0.0.1"])])
        [Event.nsQ "c" ROOT_SERVER] ∧
    cacheGetNSB (cacheWriteNS [] "c" ["ns.c"] [("ns.c", ["1.0.0.1"])]) "c" =
      some (BVal.strs ["ns.c"]) ∧
    cacheGetNSIP (cacheWriteNS [] "c" ["ns.c"] [("ns.c", ["1.0.0.1"])]) "c" =
      [("ns.c", ["1.0.0.1"])] ∧
    walkStep netEmptyNS ghbnNone "b" ROOT_SERVER [] =
      StepResult.mk (StepKind.stop ROOT_SERVER) [] [Event.nsQ "b" ROOT_SERVER] ∧
    walk netEmptyNS ghbnNone ["b"] ROOT_SERVER [] =
      WalkResult.mk (WalkOut.done ROOT_SERVER) [] [Event.nsQ "b" ROOT_SERVER] := by
  have h1 := (ns_write_before_selection netChain ghbnNone "c" ROOT_SERVER []
    ⟨[], [⟨"c", RType.NS, "ns.c."⟩], [⟨"ns.c", RType.A, "1.0.0.1"⟩]⟩ []
    (by decide) (by decide)).1 (by decide)
  have h2 := (ns_write_before_selection netEmptyNS ghbnNone "b" ROOT_SERVER []
    (DnsResponse.mk [] [] []) [] (by decide) (by decide)).2 (by decide)
  exact ⟨h1.1.trans (by decide), h1.2.1.trans (by decide),
    h1.2.2.trans (by decide), h2.1.trans (by decide), h2.2.trans (by decide)⟩

/-- C5 counterexample: the claim fails for responses whose extracted NS
list is empty.  The NS query for `b` returns a response (conjunct 1)
and is actually issued during the resolution of `a.b` (conjunct 2),
yet the final cache holds no NS bucket for `b` at all (conjunct 3):
the walk breaks before the cache-write line, so the empty NS list is
never written. -/
theorem ns_empty_response_not_written_counterexample :
    netEmptyNS "b" ROOT_SERVER RType.NS = some (DnsResponse.mk [] [] []) ∧
    Event.nsQ "b" ROOT_SERVER ∈ (resolve netEmptyNS ghbnNone 5 "a.b" []).trace ∧
    cacheGetNSB (resolve netEmptyNS ghbnNone 5 "a.b" []).cache "b" = none ∧
    (resolve netEmptyNS ghbnNone 5 "a.b" []).result = some ["1.1.1.1"] := by
  decide

/-- C8 (amended): cache keys are the verbatim domain strings — storage
under a name is visible to lookup under exactly that spelling and
invisible to every other spelling (in particular to case or
trailing-dot variants); no normalization is applied to the key. -/
theorem cache_key_verbatim (c : Cache) (d1 d2 : String) (ips : List String)
    (h : d2 ≠ d1) :
    cacheGetA (cacheSetA c d1 ips) d1 = some (BVal.strs ips) ∧
    cacheGetA (cacheSetA c d1 ips) d2 = cacheGetA c d2 :=
  ⟨cacheGetBucket_set_self c d1 "A" (BVal.strs ips),
    cacheGetA_setA_ne c d1 ips d2 h⟩

/-- C8 witness: writing the `A` bucket under `example.com` is read back
under `example.com` and is invisible under `Example.COM.`. -/
theorem cache_key_verbatim_witness :
    cacheGetA (cacheSetA [] "example.com" ["1.2.3.4"]) "example.com" =
      some (BVal.strs ["1.2.3.4"]) ∧
    cacheGetA (cacheSetA [] "example.com" ["1.2.3.4"]) "Example.COM." =
      cacheGetA [] "Example.COM." :=
  cache_key_verbatim [] "example.com" "Example.COM." ["1.2.3.4"] (by decide)

/-- C8 counterexample: the claim fails — with the `A` bucket cached
under `example.com`, resolving `Example.COM.` does not read that
entry: it goes to the network (first suffix `""`, since the key is not
normalized) while resolving `example.com` is served from the cache
with no query.  The two spellings do not share a cache entry. -/
theorem cache_key_insensitive_counterexample :
    resolve netNone ghbnNone 3 "Example.COM." cacheLower =
      RunResult.mk none cacheLower [Event.nsQ "" ROOT_SERVER] ∧
    resolve netNone ghbnNone 3 "example.com" cacheLower =
      RunResult.mk (some ["1.2.3.4"]) cacheLower [] := by
  decide
